import Mathlib

/-!
Shallow embedding of the WAM-style abstract machine and compiler in
`src/src/lib.rs` of the `wam-prolog` repository, together with theorems
settling the frozen claims about it.

Conventions of the embedding:
* Rust `Vec` indexing panics translate to `Option` results (`none` = panic).
* `HashMap` / `HashSet` are modelled as association lists / lists; the code
  only ever uses deterministic lookups on them, never iteration order, in the
  functions embedded here (where iteration order matters only for the order of
  `Y`-register numbering, the source's final ordering pass is itself
  deterministic and is embedded as written).
* The possibly diverging loops (`deref`, the PDL drain loop of `unify`) take a
  fuel parameter; fuel exhaustion yields `none`.
-/

namespace WAM

/-- Functor: name/arity pair (`struct Functor` in src/src/lib.rs). -/
structure Functor where
  name : String
  arity : Nat
deriving DecidableEq, Repr

/-- Heap cells (`enum Cell`): structure pointer, reference, functor descriptor. -/
inductive Cell where
  | Str (a : Nat)
  | Ref (a : Nat)
  | Func (f : Functor)
deriving DecidableEq, Repr

/-- Register identifiers (`enum Register`): temporary `X(i)` or permanent `Y(i)`. -/
inductive Register where
  | X (i : Nat)
  | Y (i : Nat)
deriving DecidableEq, Repr

/-- Store addresses (`enum Store`): heap index or register identifier. -/
inductive Store where
  | HeapAddr (a : Nat)
  | Register (r : WAM.Register)
deriving DecidableEq, Repr

/-- Read/Write mode (`enum Mode`). -/
inductive Mode where
  | Read
  | Write
deriving DecidableEq, Repr

/-- Environment stack frames (`enum Frame`). -/
inductive Frame where
  | Code (a : Nat)
  | Cell (c : WAM.Cell)
deriving DecidableEq, Repr

/-- The instruction set (`enum Instruction`). -/
inductive Instruction where
  | PutStructure (f : Functor) (r : Register)
  | GetStructure (f : Functor) (r : Register)
  | SetVariable (r : Register)
  | UnifyVariable (r : Register)
  | SetValue (r : Register)
  | UnifyValue (r : Register)
  | PutVariable (xn ai : Register)
  | PutValue (xn ai : Register)
  | GetValue (xn ai : Register)
  | GetVariable (xn ai : Register)
  | Allocate (n : Nat)
  | Deallocate
  | Call (f : Functor)
  | Proceed
deriving DecidableEq, Repr

/-- Register block (`struct Registers`): h, x, s, p, cp, e. -/
structure Registers where
  h : Nat
  x : List (Option Cell)
  s : Nat
  p : Nat
  cp : Nat
  e : Nat
deriving DecidableEq, Repr

/-- Code store (`struct Code`): instruction area plus functor → entry address map
(the `HashMap` is modelled as an association list; insertion conses, lookup
takes the first hit, which matches `HashMap::insert` overwriting). -/
structure Code where
  code_area : List Instruction
  code_address : List (Functor × Nat)
deriving DecidableEq, Repr

/-- Machine state (`struct Machine`). -/
structure Machine where
  heap : List Cell
  pdl : List Store
  code : Code
  stack : List (Option Frame)
  registers : Registers
  mode : Mode
  fail : Bool
deriving DecidableEq, Repr

/-- `Machine::new()`. -/
def Machine.new : Machine :=
  { heap := []
    pdl := []
    code := { code_area := [], code_address := [] }
    stack := []
    registers := { h := 0, x := [], s := 0, p := 0, cp := 0, e := 0 }
    mode := Mode.Read
    fail := false }

/-- Association-list lookup standing in for `HashMap::get`. -/
def lookupA {α β : Type} [DecidableEq α] : List (α × β) → α → Option β
  | [], _ => none
  | (k, v) :: t, a => if k = a then some v else lookupA t a

/-- Bounds-checked list update; `none` models the Rust panic on an
out-of-bounds index assignment. -/
def listSet? {α : Type} (l : List α) (n : Nat) (v : α) : Option (List α) :=
  if n < l.length then some (l.set n v) else none

/-- `Vec::resize(n, v)`: truncate or extend with copies of `v`. -/
def resize {α : Type} (l : List α) (n : Nat) (v : α) : List α :=
  l.take n ++ List.replicate (n - l.length) v

/-- `Register::address`. -/
def Register.address : Register → Nat
  | .X a => a
  | .Y a => a

/-- `Cell::is_ref`. -/
def Cell.is_ref : Cell → Bool
  | .Ref _ => true
  | _ => false

/-- `Cell::is_func` (derived predicate). -/
def Cell.is_func : Cell → Bool
  | .Func _ => true
  | _ => false

/-- `Cell::address`. -/
def Cell.address : Cell → Option Nat
  | .Str a => some a
  | .Ref a => some a
  | .Func _ => none

/-- `Store::address`. -/
def Store.address : Store → Nat
  | .HeapAddr a => a
  | .Register r => r.address

/-- `Store::is_heap`. -/
def Store.is_heap : Store → Bool
  | .HeapAddr _ => true
  | .Register _ => false

/-- `Machine::get_x`: read an X register (1-indexed; out-of-bounds panic and
an unset register both collapse to `none`, every caller unwraps). -/
def get_x (m : Machine) (xi : Nat) : Option Cell :=
  match xi with
  | 0 => none
  | i + 1 => (m.registers.x.get? i).join

/-- `Machine::get_y`: read a permanent register from the current frame. -/
def get_y (m : Machine) (yi : Nat) : Option Cell :=
  match m.stack.get? (m.registers.e + 3 + yi) with
  | some (some (Frame.Cell c)) => some c
  | _ => none

/-- `Machine::get_register`. -/
def get_register (m : Machine) : Register → Option Cell
  | .X xi => get_x m xi
  | .Y yi => get_y m yi

/-- `Machine::insert_x` (grows the register file on demand; `xi = 0` models
the Rust index underflow panic). -/
def insert_x (xi : Nat) (c : Cell) (m : Machine) : Option Machine :=
  match xi with
  | 0 => none
  | i + 1 =>
    let x := m.registers.x
    let x := if i + 1 > x.length then resize x (i + 1) none else x
    (listSet? x i (some c)).map fun x' =>
      { m with registers := { m.registers with x := x' } }

/-- `Machine::insert_y`: write a permanent register slot of the current frame. -/
def insert_y (yi : Nat) (c : Cell) (m : Machine) : Option Machine :=
  (listSet? m.stack (m.registers.e + 3 + yi) (some (Frame.Cell c))).map fun st =>
    { m with stack := st }

/-- `Machine::insert_register`. -/
def insert_register (r : Register) (c : Cell) (m : Machine) : Option Machine :=
  match r with
  | .X xi => insert_x xi c m
  | .Y yi => insert_y yi c m

/-- `Machine::get_store_cell`. -/
def get_store_cell (m : Machine) : Store → Option Cell
  | .HeapAddr a => m.heap.get? a
  | .Register r => get_register m r

/-- `Machine::push_heap`. -/
def push_heap (c : Cell) (m : Machine) : Machine :=
  { m with heap := m.heap ++ [c] }

/-- `Machine::inc_h`. -/
def inc_h (v : Nat) (m : Machine) : Machine :=
  { m with registers := { m.registers with h := m.registers.h + v } }

/-- `Machine::inc_s`. -/
def inc_s (v : Nat) (m : Machine) : Machine :=
  { m with registers := { m.registers with s := m.registers.s + v } }

/-- `Machine::set_s`. -/
def set_s (v : Nat) (m : Machine) : Machine :=
  { m with registers := { m.registers with s := v } }

/-- `Machine::set_p`. -/
def set_p (v : Nat) (m : Machine) : Machine :=
  { m with registers := { m.registers with p := v } }

/-- `Machine::set_cp`. -/
def set_cp (v : Nat) (m : Machine) : Machine :=
  { m with registers := { m.registers with cp := v } }

/-- `Machine::set_e`. -/
def set_e (v : Nat) (m : Machine) : Machine :=
  { m with registers := { m.registers with e := v } }

/-- `Machine::set_mode`. -/
def set_mode (mo : Mode) (m : Machine) : Machine :=
  { m with mode := mo }

/-- `Machine::set_fail`. -/
def set_fail (v : Bool) (m : Machine) : Machine :=
  { m with fail := v }

/-- `Machine::push_pdl` (pushing on the Vec's tail is the list's head). -/
def push_pdl (a : Store) (m : Machine) : Machine :=
  { m with pdl := a :: m.pdl }

/-- `Machine::deref` with fuel; follows Ref chains until an unbound Ref
(cell target equal to the current store index), a Str, or a Func. -/
def derefF (fuel : Nat) (m : Machine) (address : Store) : Option Store :=
  match fuel with
  | 0 => none
  | fuel + 1 =>
    let ca : Option (Cell × Nat) :=
      match address with
      | .HeapAddr addr => (m.heap.get? addr).map (fun c => (c, addr))
      | .Register r => (get_register m r).map (fun c => (c, r.address))
    match ca with
    | none => none
    | some (cell, a) =>
      match cell with
      | .Ref value => if value ≠ a then derefF fuel m (.HeapAddr value) else some address
      | .Str _ => some address
      | .Func _ => some address

/-- `Machine::bind`. -/
def bind (a1 a2 : Store) (m : Machine) : Option Machine :=
  match get_store_cell m a1, get_store_cell m a2 with
  | some c1, some c2 =>
    match c1.address, c2.address with
    | some v1, some v2 =>
      if c1.is_ref && (!c2.is_ref || v2 < v1) then
        (listSet? m.heap v1 c2).map fun hp => { m with heap := hp }
      else
        (listSet? m.heap v2 c1).map fun hp => { m with heap := hp }
    | _, _ => none
  | _, _ => none

/-- `Machine::get_functor`: extract the functor of a Str or Func cell. -/
def get_functor (m : Machine) : Cell → Option Functor
  | .Str addr =>
    match m.heap.get? addr with
    | some (.Func f) => some f
    | _ => none
  | .Func f => some f
  | .Ref _ => none

/-- Push the `arity` argument-address pairs onto the PDL, as the
`for i in 1..=n1` loop of `unify` does (pushing `v1+i` then `v2+i`,
ascending, onto the stack whose head is the list head). -/
def pushPairs (v1 v2 : Nat) (n : Nat) (p : List Store) : List Store :=
  match n with
  | 0 => p
  | k + 1 => .HeapAddr (v2 + (k + 1)) :: .HeapAddr (v1 + (k + 1)) :: pushPairs v1 v2 k p

/-- The PDL drain loop of `Machine::unify` (its `while` loop), with fuel.
`dfuel` is the fuel handed to every `derefF` call. -/
def drain (dfuel : Nat) : Nat → Machine → Option Machine
  | 0, _ => none
  | fuel + 1, m =>
    if m.pdl.isEmpty || m.fail then some m
    else
      match m.pdl with
      | [] => some m
      | [_] => none
      | a1 :: a2 :: rest =>
        let m := { m with pdl := rest }
        match derefF dfuel m a1, derefF dfuel m a2 with
        | some d1, some d2 =>
          if d1 = d2 then drain dfuel fuel m
          else
            match get_store_cell m d1, get_store_cell m d2 with
            | some c1, some c2 =>
              if c1.is_ref || c2.is_ref then
                match bind d1 d2 m with
                | some m' => drain dfuel fuel m'
                | none => none
              else
                match c1.address, c2.address with
                | some v1, some v2 =>
                  match get_functor m c1, get_functor m c2 with
                  | some f1, some f2 =>
                    if f1 = f2 then
                      drain dfuel fuel { m with pdl := pushPairs v1 v2 f1.arity m.pdl }
                    else
                      drain dfuel fuel { m with fail := true }
                  | _, _ => none
                | _, _ => none
            | _, _ => none
        | _, _ => none

/-- `Machine::unify`: push both addresses, clear `fail`, drain the PDL. -/
def unify (fuel : Nat) (a1 a2 : Store) (m : Machine) : Option Machine :=
  drain fuel fuel (set_fail false (push_pdl a2 (push_pdl a1 m)))

/-- `Machine::put_structure`. -/
def put_structure (f : Functor) (xi : Register) (m : Machine) : Option Machine :=
  let h := m.registers.h
  let m1 := push_heap (Cell.Func f) (push_heap (Cell.Str (h + 1)) m)
  (insert_register xi (Cell.Str (h + 1)) m1).map (inc_h 2)

/-- `Machine::put_variable`. -/
def put_variable (xn ai : Register) (m : Machine) : Option Machine :=
  let h := m.registers.h
  let m1 := push_heap (Cell.Ref h) m
  (insert_register xn (Cell.Ref h) m1).bind fun m2 =>
    (insert_register ai (Cell.Ref h) m2).map (inc_h 1)

/-- `Machine::put_value`. -/
def put_value (xn ai : Register) (m : Machine) : Option Machine :=
  (get_register m xn).bind fun c => insert_register ai c m

/-- `Machine::set_variable`. -/
def set_variable (xi : Register) (m : Machine) : Option Machine :=
  let h := m.registers.h
  let m1 := push_heap (Cell.Ref h) m
  (insert_register xi (Cell.Ref h) m1).map (inc_h 1)

/-- `Machine::set_value`. -/
def set_value (xi : Register) (m : Machine) : Option Machine :=
  (get_register m xi).map fun c => inc_h 1 (push_heap c m)

/-- `Machine::get_variable`. -/
def get_variable (xn ai : Register) (m : Machine) : Option Machine :=
  (get_register m ai).bind fun c => insert_register xn c m

/-- `Machine::get_value`. -/
def get_value (fuel : Nat) (xn ai : Register) (m : Machine) : Option Machine :=
  unify fuel (.Register xn) (.Register ai) m

/-- `Machine::get_structure`. -/
def get_structure (fuel : Nat) (f : Functor) (xi : Register) (m : Machine) :
    Option Machine :=
  (derefF fuel m (.Register xi)).bind fun d =>
    let ca : Option (Cell × Nat) :=
      match d with
      | .HeapAddr addr => (m.heap.get? addr).map (fun c => (c, addr))
      | .Register r => (get_register m xi).map (fun c => (c, r.address))
    ca.bind fun (cell, address) =>
      match cell with
      | .Ref _ =>
        let h := m.registers.h
        let m1 := push_heap (Cell.Func f) (push_heap (Cell.Str (h + 1)) m)
        (bind (.HeapAddr address) (.HeapAddr h) m1).map fun m2 =>
          set_mode Mode.Write (inc_h 2 m2)
      | .Str a =>
        match m.heap.get? a with
        | some (.Func g) =>
          if g = f then some (set_mode Mode.Read (set_s (a + 1) m))
          else some (set_fail true m)
        | _ => none
      | .Func _ => some (set_fail true m)

/-- `Machine::unify_variable`. -/
def unify_variable (xi : Register) (m : Machine) : Option Machine :=
  let step : Option Machine :=
    match m.mode with
    | .Read => (m.heap.get? m.registers.s).bind fun c => insert_register xi c m
    | .Write =>
      let h := m.registers.h
      let m1 := push_heap (Cell.Ref h) m
      (insert_register xi (Cell.Ref h) m1).map (inc_h 1)
  step.map (inc_s 1)

/-- `Machine::unify_value`. -/
def unify_value (fuel : Nat) (xi : Register) (m : Machine) : Option Machine :=
  let step : Option Machine :=
    match m.mode with
    | .Read => unify fuel (.Register xi) (.HeapAddr m.registers.s) m
    | .Write => (get_register m xi).map fun c => inc_h 1 (push_heap c m)
  step.map (inc_s 1)

/-- `Machine::allocate`. -/
def allocate (n : Nat) (m : Machine) : Option Machine :=
  let e := m.registers.e
  let st := resize m.stack (e + n + 5) none
  (listSet? st (e + 2) (some (Frame.Code n))).bind fun st =>
    match st.get? (e + 2) with
    | some (some (Frame.Code temp)) =>
      let new_e := e + temp + 3
      (listSet? st new_e (some (Frame.Code e))).bind fun st =>
        (listSet? st (new_e + 1) (some (Frame.Code m.registers.cp))).map fun st =>
          set_p (m.registers.p + 1) (set_e new_e { m with stack := st })
    | _ => none

/-- `Machine::deallocate`. -/
def deallocate (m : Machine) : Option Machine :=
  let e := m.registers.e
  match m.stack.get? (e + 1), m.stack.get? e with
  | some (some (Frame.Code new_p)), some (some (Frame.Code new_e)) =>
    some (set_e new_e (set_p new_p m))
  | _, _ => none

/-- `Machine::call`. -/
def call (f : Functor) (m : Machine) : Option Machine :=
  (lookupA m.code.code_address f).map fun a =>
    set_p a (set_cp (m.registers.p + 1) m)

/-- `Machine::proceed`. -/
def proceed (m : Machine) : Option Machine :=
  some (set_p m.registers.cp m)

/-- `Machine::execute`: dispatch one instruction. -/
def execute (fuel : Nat) (i : Instruction) (m : Machine) : Option Machine :=
  match i with
  | .PutStructure f x => put_structure f x m
  | .GetStructure f x => get_structure fuel f x m
  | .SetValue x => set_value x m
  | .UnifyValue x => unify_value fuel x m
  | .SetVariable x => set_variable x m
  | .UnifyVariable x => unify_variable x m
  | .PutVariable x a => put_variable x a m
  | .PutValue x a => put_value x a m
  | .GetValue x a => get_value fuel x a m
  | .GetVariable x a => get_variable x a m
  | .Allocate n => allocate n m
  | .Deallocate => deallocate m
  | .Call f => call f m
  | .Proceed => proceed m

/-- Is the instruction one of the loop-breaking control instructions of
`execute_instructions`? -/
def isCtrl : Instruction → Bool
  | .Call _ => true
  | .Proceed => true
  | _ => false

/-- The `while` loop of `Machine::execute_instructions`, acting on the
suffix of the (snapshotted) instruction vector that starts at the loop
counter: execute each instruction in turn, but execute a `Call` or
`Proceed` and then break out of the loop. -/
def run (fuel : Nat) : List Instruction → Machine → Option Machine
  | [], m => some m
  | i :: rest, m =>
    if isCtrl i then execute fuel i m
    else (execute fuel i m).bind (run fuel rest)

/-- Straight-line execution of a whole instruction list (no loop break);
used to characterize `run`. -/
def execList (fuel : Nat) : List Instruction → Machine → Option Machine
  | [], m => some m
  | i :: rest, m => (execute fuel i m).bind (execList fuel rest)

/-- `Machine::push_instructions`: record the entry address for `f`, then
append the instructions to the code area. -/
def push_instructions (f : Functor) (instrs : List Instruction) (m : Machine) : Machine :=
  { m with code := { code_area := m.code.code_area ++ instrs,
                     code_address := (f, m.code.code_area.length) :: m.code.code_address } }

/-- `Machine::execute_instructions`: look up the entry address and run the
loop from there over a snapshot of the code area. -/
def execute_instructions (fuel : Nat) (f : Functor) (m : Machine) : Option Machine :=
  (lookupA m.code.code_address f).bind fun a =>
    run fuel (m.code.code_area.drop a) m

/-- Variable names (`struct Var` of the AST; a newtype over `String`). -/
abbrev Var := String

/-- First-order terms (`enum Term` of the AST): atoms, variables and
compounds; the `Compound` payload is inlined. -/
inductive Term where
  | Atom (name : String)
  | Var (v : WAM.Var)
  | Compound (name : String) (arity : Nat) (args : List Term)

mutual

/-- Decidable equality of terms (the derive handler does not support the
nested occurrence of `List Term`). -/
def Term.decEq : (t1 t2 : Term) → Decidable (t1 = t2)
  | .Atom a, .Atom b =>
    if h : a = b then .isTrue (by rw [h]) else .isFalse (by simp [h])
  | .Atom _, .Var _ => .isFalse (by simp)
  | .Atom _, .Compound _ _ _ => .isFalse (by simp)
  | .Var _, .Atom _ => .isFalse (by simp)
  | .Var a, .Var b =>
    if h : a = b then .isTrue (by rw [h]) else .isFalse (by simp [h])
  | .Var _, .Compound _ _ _ => .isFalse (by simp)
  | .Compound _ _ _, .Atom _ => .isFalse (by simp)
  | .Compound _ _ _, .Var _ => .isFalse (by simp)
  | .Compound n1 a1 as1, .Compound n2 a2 as2 =>
    if h1 : n1 = n2 then
      if h2 : a1 = a2 then
        match Term.decEqList as1 as2 with
        | .isTrue h3 => .isTrue (by rw [h1, h2, h3])
        | .isFalse h3 => .isFalse (by simp [h3])
      else .isFalse (by simp [h2])
    else .isFalse (by simp [h1])

/-- Decidable equality of term lists. -/
def Term.decEqList : (l1 l2 : List Term) → Decidable (l1 = l2)
  | [], [] => .isTrue rfl
  | [], _ :: _ => .isFalse (by simp)
  | _ :: _, [] => .isFalse (by simp)
  | t :: ts, u :: us =>
    match Term.decEq t u, Term.decEqList ts us with
    | .isTrue h1, .isTrue h2 => .isTrue (by rw [h1, h2])
    | .isFalse h1, _ => .isFalse (by simp [h1])
    | _, .isFalse h2 => .isFalse (by simp [h2])

end

instance : DecidableEq Term := Term.decEq

/-- Compound terms (`struct Compound` of the AST). -/
structure Compound where
  name : String
  arity : Nat
  args : List Term
deriving DecidableEq

/-- View a `Compound` as a `Term`. -/
def Compound.toTerm (c : Compound) : Term :=
  Term.Compound c.name c.arity c.args

/-- Rules (`struct Rule` of the AST): a head compound and a nonempty body. -/
structure Rule where
  head : Compound
  body : List Compound
deriving DecidableEq

/-- `Structuralize::structuralize`: view a term as a compound. Modelled from
the spec for the `Atom` case (the AST module is not among the provided
sources): an atom is a nullary constant, `Compound { name, arity: 0 }`;
a bare variable has no compound view. The `Compound` case is forced by the
repository's own compiler tests. -/
def structuralize : Term → Option Compound
  | Term.Atom a => some { name := a, arity := 0, args := [] }
  | Term.Var _ => none
  | Term.Compound n a args => some { name := n, arity := a, args := args }

/-- Register maps (`type TermMap = HashMap<Term, Register>`), as an
association list: insertion conses (the code only inserts absent keys or
deliberately overwrites), lookup takes the first hit. -/
abbrev TermMap := List (Term × Register)

/-- Seen sets (`type TermSet = HashSet<Term>`). -/
abbrev TermSet := List Term

/-- Compiler state threaded through `allocate_query_registers`:
the register counter `x`, the term map `m`, the seen set, and the
accumulated instruction list. -/
structure QState where
  x : Nat
  m : TermMap
  seen : TermSet
  instructions : List Instruction

/-- Insert a term into the map at the next register if absent
(the `if !m.contains_key` pattern). -/
def assignIfAbsent (t : Term) (st : QState) : QState :=
  match lookupA st.m t with
  | some _ => st
  | none => { st with m := (t, Register.X st.x) :: st.m, x := st.x + 1 }

mutual

/-- `allocate_query_registers` (src/src/lib.rs lines 755-790): assign
registers to the compound and its arguments, recurse into compound
arguments, then emit `PutStructure` followed by `SetVariable`/`SetValue`
per argument. -/
def allocate_query_registers (name : String) (arity : Nat) (args : List Term)
    (st : QState) : QState :=
  let term := Term.Compound name arity args
  let st := assignIfAbsent term st
  let st := args.foldl (fun st t => assignIfAbsent t st) st
  let st := aqrArgs args st
  let f : Functor := { name := name, arity := arity }
  let st :=
    match lookupA st.m term with
    | some r =>
      { st with instructions := st.instructions ++ [Instruction.PutStructure f r],
                seen := term :: st.seen }
    | none => st
  args.foldl
    (fun st t =>
      match lookupA st.m t with
      | some r =>
        if st.seen.contains t then
          { st with instructions := st.instructions ++ [Instruction.SetValue r] }
        else
          { st with instructions := st.instructions ++ [Instruction.SetVariable r],
                    seen := t :: st.seen }
      | none => st)
    st
termination_by (sizeOf args, 1)

/-- The recursion of `allocate_query_registers` over the argument list:
descend into each compound argument. -/
def aqrArgs (args : List Term) (st : QState) : QState :=
  match args with
  | [] => st
  | t :: rest =>
    match t with
    | Term.Compound n a as =>
      aqrArgs rest (allocate_query_registers n a as st)
    | _ => aqrArgs rest st
termination_by (sizeOf args, 0)

end

/-- The per-argument body of the loop of `compile_query`
(src/src/lib.rs lines 847-869); `a` is the argument register index,
`x` is re-initialized to `a + arity` for each top-level argument. -/
def compileQueryArg (arity : Nat) (a : Nat) (arg : Term)
    (m : TermMap) (seen : TermSet) (instructions : List Instruction) :
    TermMap × TermSet × List Instruction :=
  let x := a + arity
  match arg with
  | Term.Var _ =>
    if seen.contains arg then
      match lookupA m arg with
      | some r => (m, seen, instructions ++ [Instruction.PutValue r (Register.X a)])
      | none => (m, seen, instructions)
    else
      match lookupA m arg with
      | some r =>
        (m, arg :: seen, instructions ++ [Instruction.PutVariable r (Register.X a)])
      | none =>
        ((arg, Register.X x) :: m, arg :: seen,
          instructions ++ [Instruction.PutVariable (Register.X x) (Register.X a)])
  | _ =>
    match structuralize arg with
    | some c =>
      let st := allocate_query_registers c.name c.arity c.args
        { x := x, m := (arg, Register.X a) :: m, seen := arg :: seen,
          instructions := instructions }
      (st.m, st.seen, st.instructions)
    | none => (m, seen, instructions)

/-- Loop of `compile_query` over the indexed arguments. -/
def compileQueryArgs (arity : Nat) : Nat → List Term →
    TermMap × TermSet × List Instruction → TermMap × TermSet × List Instruction
  | _, [], acc => acc
  | a, arg :: rest, (m, seen, instructions) =>
    compileQueryArgs arity (a + 1) rest (compileQueryArg arity a arg m seen instructions)

/-- `compile_query` (src/src/lib.rs lines 842-874). -/
def compile_query (t : Term) (m : TermMap) (seen : TermSet) :
    Option (List Instruction) :=
  (structuralize t).map fun compound =>
    let (_, _, instructions) :=
      compileQueryArgs compound.arity 1 compound.args (m, seen, [])
    instructions ++ [Instruction.Call { name := compound.name, arity := compound.arity }]

mutual

/-- `find_variables` (src/src/lib.rs lines 912-924): collect, in textual
order, the variables occurring in the arguments of a compound term,
descending into compound arguments of positive arity. -/
def find_variables : Term → List Var
  | Term.Compound _ _ args => findVariablesArgs args
  | _ => []

/-- The loop of `find_variables` over an argument list. -/
def findVariablesArgs : List Term → List Var
  | [] => []
  | t :: rest =>
    match t with
    | Term.Var v => v :: findVariablesArgs rest
    | Term.Compound n a as =>
      (if 0 < a then find_variables (Term.Compound n a as) else []) ++
        findVariablesArgs rest
    | _ => findVariablesArgs rest

end

/-- `find_variable_positions`: first-occurrence deduplication of the
variable list, as `Term::Var` terms. -/
def find_variable_positions (all_vars : List Var) : List Term :=
  all_vars.foldl
    (fun perm_vars v =>
      let t := Term.Var v
      if perm_vars.contains t then perm_vars else perm_vars ++ [t])
    []

/-- Overwriting insertion into an association list (`HashMap::insert`). -/
def insertA {α β : Type} [DecidableEq α] : List (α × β) → α → β → List (α × β)
  | [], k, v => [(k, v)]
  | (k', v') :: t, k, v =>
    if k' = k then (k, v) :: t else (k', v') :: insertA t k v

/-- `collect_permanent_variables` (src/src/lib.rs lines 939-993): `none`
models the panic on an empty rule body (`body[0]`). The occurrence counts
are kept in an association list; the source's `HashMap` iteration order is
only ever used to build the intermediate `vars` list, which is consumed
purely through membership tests. -/
def collect_permanent_variables (rule : Rule) : Option TermMap :=
  match rule.body with
  | [] => none
  | b0 :: rest =>
    let head := rule.head.toTerm
    let vars := find_variables head ++ find_variables b0.toTerm
    let counts : List (Var × Nat) :=
      vars.foldl (fun counts v => insertA counts v 1) []
    let bodyVars := rest.foldl (fun acc b => acc ++ find_variables b.toTerm) []
    let counts :=
      bodyVars.foldl
        (fun counts v =>
          match lookupA counts v with
          | some c => insertA counts v (c + 1)
          | none => insertA counts v 1)
        counts
    let vars : List Term :=
      (counts.filter (fun p => 1 < p.2)).map (fun p => Term.Var p.1)
    let all_vars :=
      find_variables head ++
        rule.body.foldl (fun acc b => acc ++ find_variables b.toTerm) []
    let perm_vars := find_variable_positions all_vars
    let temp :=
      perm_vars.foldl
        (fun temp t =>
          if vars.contains t && !temp.contains t then temp ++ [t] else temp)
        []
    some ((temp.enum.map fun p => (p.2, Register.Y (p.1 + 1))))

/-! ## Specification-side definitions

These definitions follow the wording of the specification (not the source);
they exist to be compared against the source-derived definitions above. -/

/-- The chunks of a rule as the specification describes them: the head
together with the first body goal forms one chunk, and every later body
goal is its own chunk. Empty for the (malformed) empty-body rule. -/
def spec_chunks (rule : Rule) : List (List Var) :=
  match rule.body with
  | [] => []
  | b0 :: rest =>
    (find_variables rule.head.toTerm ++ find_variables b0.toTerm) ::
      rest.map (fun b => find_variables b.toTerm)

/-- The specification's permanent-variable criterion (C2, spec wording):
a variable is permanent iff it appears in more than one chunk. -/
def spec_permanent (rule : Rule) (v : Var) : Bool :=
  1 < ((spec_chunks rule).filter (fun ch => ch.contains v)).length

/-- The heap invariant claimed by C8, as an executable check: every
`Str(a)` cell on the heap points at a `Func` cell. -/
def strHeapOk (heap : List Cell) : Bool :=
  heap.all (fun c =>
    match c with
    | Cell.Str a => (heap.get? a).elim false Cell.is_func
    | _ => true)

/-! ## Concrete machines and programs used by the claim theorems -/

/-- The query term `p(Z, h(Z, W), f(W))` of C4 (and figure 2.9 of the
repository's tests). -/
def queryC4 : Term :=
  Term.Compound "p" 3
    [Term.Var "Z",
     Term.Compound "h" 2 [Term.Var "Z", Term.Var "W"],
     Term.Compound "f" 1 [Term.Var "W"]]

/-- A rule `p(W) :- q(W), r(X, X)` in which `X` occurs twice inside one
single later body goal and nowhere else. -/
def ruleXX : Rule :=
  { head := { name := "p", arity := 1, args := [Term.Var "W"] }
    body := [ { name := "q", arity := 1, args := [Term.Var "W"] },
              { name := "r", arity := 2, args := [Term.Var "X", Term.Var "X"] } ] }

/-- A machine whose code area holds `f ↦ [Call g]` and
`g ↦ [SetVariable X1, Proceed]`. -/
def machineC1 : Machine :=
  push_instructions { name := "g", arity := 0 }
    [Instruction.SetVariable (Register.X 1), Instruction.Proceed]
    (push_instructions { name := "f", arity := 0 }
      [Instruction.Call { name := "g", arity := 0 }] Machine.new)

/-- Code for C3, first two instructions only: build `b` into `X1`, then
match it against `a/0` (which fails). -/
def machineC3a : Machine :=
  push_instructions { name := "f", arity := 0 }
    [Instruction.PutStructure { name := "b", arity := 0 } (Register.X 1),
     Instruction.GetStructure { name := "a", arity := 0 } (Register.X 1)]
    Machine.new

/-- Code for C3 with a third instruction after the failing one. -/
def machineC3b : Machine :=
  push_instructions { name := "f", arity := 0 }
    [Instruction.PutStructure { name := "b", arity := 0 } (Register.X 1),
     Instruction.GetStructure { name := "a", arity := 0 } (Register.X 1),
     Instruction.SetVariable (Register.X 2)]
    Machine.new

/-- A machine with `cp = 7`, used to exhibit the frame built by `Allocate`. -/
def machineC5 : Machine :=
  { Machine.new with registers := { Machine.new.registers with cp := 7 } }

/-- A two-cell heap: an unbound Ref at address 0 and a bare functor
descriptor `a/0` at address 1. -/
def machineC6 : Machine :=
  { Machine.new with heap := [Cell.Ref 0, Cell.Func { name := "a", arity := 0 }] }

/-- The machine reached by executing `SetVariable X2; SetVariable X1` from a
fresh machine: `X1` then holds `Ref(1)`, whose target equals the register
index. -/
def machineC7 : Option Machine :=
  execList 99
    [Instruction.SetVariable (Register.X 2), Instruction.SetVariable (Register.X 1)]
    Machine.new

/-- Code for C8: after `SetVariable X2; SetVariable X1`, register `X1`
holds `Ref(1)`; the two following `GetStructure` instructions then route
`bind` through the register-resident Ref and overwrite the fresh `Func`
cell with a `Str` cell. -/
def machineC8 : Machine :=
  push_instructions { name := "t", arity := 0 }
    [Instruction.SetVariable (Register.X 2),
     Instruction.SetVariable (Register.X 1),
     Instruction.GetStructure { name := "f", arity := 1 } (Register.X 1),
     Instruction.GetStructure { name := "g", arity := 1 } (Register.X 1)]
    Machine.new

/-- Forget the fail flag (set it to `false`); two machines with equal
`eraseFail` images differ at most in their fail flags. -/
def eraseFail (m : Machine) : Machine := { m with fail := false }

/-- Replace the PDL. -/
def setPdl (p : List Store) (m : Machine) : Machine := { m with pdl := p }

/-- Forget the PDL; two machines with equal `erasePdl` images differ at
most in their unification work lists. -/
def erasePdl (m : Machine) : Machine := { m with pdl := [] }

/-- Swap the members of each adjacent pair of a list, from the front:
the shape of the PDL of `unify(B,A)` relative to that of `unify(A,B)`. -/
def swapAdj {α : Type} : List α → List α
  | a :: b :: t => b :: a :: swapAdj t
  | l => l

/-- Well-formedness of one cell with respect to a heap: a `Str(a)` points
at a `Func`, and a `Ref(v)` points inside the heap at a non-`Func` cell. -/
def cellOk (heap : List Cell) : Cell → Bool
  | Cell.Str a => (heap.get? a).elim false Cell.is_func
  | Cell.Ref v => decide (v < heap.length) && !(heap.get? v).elim false Cell.is_func
  | Cell.Func _ => true

/-- Well-formedness of an optional register cell. -/
def xcellOk (heap : List Cell) (oc : Option Cell) : Bool :=
  oc.elim true (cellOk heap)

/-- Well-formedness of a stack slot: only `Cell` frames are constrained. -/
def frameOk (heap : List Cell) : Option Frame → Bool
  | some (Frame.Cell c) => cellOk heap c
  | _ => true

/-- The machine invariant for C8: the h register equals the heap length,
and every cell stored on the heap, in an X register or in a stack slot is
well-formed (`Str` cells point at `Func` cells, `Ref` cells point inside
the heap at non-`Func` cells). -/
def Inv (m : Machine) : Prop :=
  m.registers.h = m.heap.length ∧
    (∀ c ∈ m.heap, cellOk m.heap c = true) ∧
    (∀ oc ∈ m.registers.x, xcellOk m.heap oc = true) ∧
    (∀ fr ∈ m.stack, frameOk m.heap fr = true)

/-- The side condition of the amended C8: a `GetStructure` instruction must
dereference its register either to a heap address or to a register whose
cell is not a Ref (ruling out the `X(i) = Ref(i)` anomaly); all other
instructions are unconstrained. -/
def goodStep (fuel : Nat) (i : Instruction) (m : Machine) : Prop :=
  ∀ f r, i = Instruction.GetStructure f r →
    (∃ a, derefF fuel m (Store.Register r) = some (Store.HeapAddr a)) ∨
      (∃ c, derefF fuel m (Store.Register r) = some (Store.Register r) ∧
        get_register m r = some c ∧ c.is_ref = false)

/-- A two-cell heap holding two unbound Refs, for the C6 witness. -/
def machineC6b : Machine :=
  { Machine.new with heap := [Cell.Ref 0, Cell.Ref 1] }

/-- A heap whose address 0 holds `Ref 1` and whose address 1 is unbound,
for the C7 witness. -/
def machineDeref : Machine :=
  { Machine.new with heap := [Cell.Ref 1, Cell.Ref 1] }

/-! ## Claim theorems -/

/-- C4 (confirmed): `compile_query` applied to the query
`p(Z, h(Z, W), f(W)).` with a fresh variable map and seen set returns
exactly `PutVariable(X4,X1), PutStructure(h/2,X2), SetValue(X4),
SetVariable(X5), PutStructure(f/1,X3), SetValue(X5), Call(p/3)`. -/
theorem claim_C4 :
    compile_query queryC4 [] [] =
      some
        [Instruction.PutVariable (Register.X 4) (Register.X 1),
         Instruction.PutStructure { name := "h", arity := 2 } (Register.X 2),
         Instruction.SetValue (Register.X 4),
         Instruction.SetVariable (Register.X 5),
         Instruction.PutStructure { name := "f", arity := 1 } (Register.X 3),
         Instruction.SetValue (Register.X 5),
         Instruction.Call { name := "p", arity := 3 }] := by
  simp [compile_query, compileQueryArgs, compileQueryArg, allocate_query_registers,
    aqrArgs, assignIfAbsent, structuralize, lookupA, queryC4]

/-- C2, counterexample: in the rule `p(W) :- q(W), r(X, X)` the variable
`X` occurs in only one chunk of `{head ∪ b1}, b2`, so the claim classifies
it as temporary; yet `collect_permanent_variables` classifies it as the
(only) permanent variable. -/
theorem claim_C2_counterexample :
    collect_permanent_variables ruleXX = some [(Term.Var "X", Register.Y 1)] ∧
      spec_permanent ruleXX "X" = false := by
  constructor
  · decide
  · decide

/-- C1, counterexample: with `f ↦ [Call g]` and `g ↦ [SetVariable X1,
Proceed]` loaded, `execute_instructions f` executes the `Call` (recording
`P = 1`, g's entry, and `CP = 1`) and then stops: the callee's
`SetVariable` never runs, so the heap stays empty, although the claim's
reading (continue through the callee until its `Proceed`) would have
pushed `Ref(0)`. -/
theorem claim_C1_counterexample :
    (execute_instructions 99 { name := "f", arity := 0 } machineC1).map
        (fun m => (m.heap, m.registers.p, m.registers.cp)) =
      some ([], 1, 1) := by
  decide

/-- C3, counterexample: executing `PutStructure(b/0,X1);
GetStructure(a/0,X1)` sets `fail` and leaves a two-cell heap, but with a
further `SetVariable(X2)` appended the executor still runs it from the
failed state and the heap grows to three cells -- the executor never
checks `fail`. -/
theorem claim_C3_counterexample :
    (execute_instructions 99 { name := "f", arity := 0 } machineC3a).map
        (fun m => (m.fail, m.heap.length)) = some (true, 2) ∧
      (execute_instructions 99 { name := "f", arity := 0 } machineC3b).map
        (fun m => (m.fail, m.heap.length)) = some (true, 3) := by
  constructor
  · decide
  · decide

/-- C5 (code bug, evaluation at the failing input): `Allocate(2)` from a
fresh machine with `CP = 7` produces `E = 5` and a 7-slot stack whose
slots are `[_, _, Code 2, _, _, Code 0, Code 7]`: the previous-`E` and
saved-`CP` slots sit at `stack[E]` and `stack[E+1]` as claimed and
`Deallocate` restores `P = 7`, `E = 0` from them, but `n` is stored at
`stack[2] = stack[E-n-1]` rather than `stack[E+2]` (which is out of
bounds), and both writing and reading `Y(1)` (at index `E+3+1 = 9`,
beyond the 7-slot stack) fail, so the claimed slots
`stack[E+3..E+3+n]` do not exist. -/
theorem claim_C5_bug :
    (allocate 2 machineC5).map (fun m => (m.stack, m.registers.e, m.registers.p)) =
        some ([none, none, some (Frame.Code 2), none, none,
               some (Frame.Code 0), some (Frame.Code 7)], 5, 1) ∧
      ((allocate 2 machineC5).bind (fun m => insert_y 1 (Cell.Ref 0) m)) = none ∧
      ((allocate 2 machineC5).bind (fun m => get_y m 1)) = none ∧
      ((allocate 2 machineC5).bind deallocate).map
          (fun m => (m.registers.p, m.registers.e)) = some (7, 0) := by
  refine ⟨by decide, by decide, by decide, by decide⟩

/-- C6, counterexample: `HeapAddr 0` (an unbound Ref) and `HeapAddr 1`
(a bare `Func a/0` descriptor) are dereferenced, unequal store addresses
with one Ref side, yet `bind` does not overwrite the Ref cell with the
other side's cell: it panics (`Cell::address` of a `Func` is `None` and
is unwrapped), modelled by `none`. -/
theorem claim_C6_counterexample :
    derefF 9 machineC6 (Store.HeapAddr 0) = some (Store.HeapAddr 0) ∧
      derefF 9 machineC6 (Store.HeapAddr 1) = some (Store.HeapAddr 1) ∧
      (Cell.Ref 0).is_ref = true ∧
      WAM.bind (Store.HeapAddr 0) (Store.HeapAddr 1) machineC6 = none := by
  refine ⟨by decide, by decide, by decide, by decide⟩

/-- C7, counterexample: after `SetVariable X2; SetVariable X1` from a
fresh machine, register `X1` holds the Ref cell `Ref(1)`, and `deref` of
that register returns the register's own store address (the Ref's target
equals the register index), not a heap address. -/
theorem claim_C7_counterexample :
    (machineC7.bind (fun m => get_register m (Register.X 1))) = some (Cell.Ref 1) ∧
      (machineC7.bind (fun m => derefF 99 m (Store.Register (Register.X 1)))) =
        some (Store.Register (Register.X 1)) ∧
      (Store.Register (Register.X 1)).is_heap = false := by
  refine ⟨by decide, by decide, by decide⟩

/-- C8, counterexample: executing `SetVariable X2; SetVariable X1;
GetStructure(f/1, X1); GetStructure(g/1, X1)` from a fresh machine
reaches a state (via `execute_instructions`) whose heap is
`[Ref 0, Str 3, Str 3, Func f/1, Str 5, Str 3]`: the cell `Str 5` at
address 4 points at `Str 3`, not at a `Func`, so the claimed invariant
fails in a reachable state. -/
theorem claim_C8_counterexample :
    (execute_instructions 99 { name := "t", arity := 0 } machineC8).map
        (fun m => (m.heap, strHeapOk m.heap)) =
      some ([Cell.Ref 0, Cell.Str 3, Cell.Str 3,
             Cell.Func { name := "f", arity := 1 }, Cell.Str 5, Cell.Str 3],
            false) := by
  decide


/-- C1 (amended): the executor loop runs sequentially through exactly the
instructions preceding the first `Call` or `Proceed` of the remaining
stream, then executes that control instruction (if present) and stops;
nothing after it -- in particular no callee code -- is executed. -/
theorem claim_C1_amended (fuel : Nat) (instrs : List Instruction) (m : Machine) :
    run fuel instrs m =
      (execList fuel (instrs.takeWhile (fun i => !isCtrl i)) m).bind
        (fun m' =>
          match instrs.dropWhile (fun i => !isCtrl i) with
          | [] => some m'
          | c :: _ => execute fuel c m') := by
  induction instrs generalizing m with
  | nil => simp [run, execList]
  | cons i rest ih =>
    by_cases h : isCtrl i
    · simp [run, h, List.takeWhile_cons, List.dropWhile_cons, execList]
    · simp only [run, h, List.takeWhile_cons, List.dropWhile_cons, Bool.not_false,
        if_true, if_false, ite_true, ite_false, execList]
      cases hx : execute fuel i m with
      | none => simp [hx]
      | some m1 => simp [hx, ih]

/-- C10 (confirmed): `unify` unconditionally clears the fail flag before
draining the PDL, so its outcome does not depend on the incoming flag;
consequently `GetValue` (which is `unify` on two registers) and a
read-mode `UnifyValue` behave identically on a machine whose fail flag is
set and on the same machine with it clear: an earlier recorded failure is
erased by a later unification instruction. -/
theorem claim_C10 :
    (∀ (fuel : Nat) (a1 a2 : Store) (m : Machine) (b : Bool),
        unify fuel a1 a2 (set_fail b m) = unify fuel a1 a2 m) ∧
      (∀ (fuel : Nat) (xn ai : Register) (m : Machine) (b : Bool),
        get_value fuel xn ai (set_fail b m) = get_value fuel xn ai m) ∧
      (∀ (fuel : Nat) (xi : Register) (m : Machine) (b : Bool),
        m.mode = Mode.Read →
        unify_value fuel xi (set_fail b m) = unify_value fuel xi m) := by
  have hu : ∀ (fuel : Nat) (a1 a2 : Store) (m : Machine) (b : Bool),
      unify fuel a1 a2 (set_fail b m) = unify fuel a1 a2 m := by
    intro fuel a1 a2 m b
    cases m
    rfl
  refine ⟨hu, fun fuel xn ai m b => hu fuel _ _ m b, ?_⟩
  intro fuel xi m b hmode
  cases m
  cases hmode
  rfl

/-- Closed instance of the read-mode part of C10 at a concrete machine. -/
theorem claim_C10_witness :
    unify_value 5 (Register.X 1) (set_fail true Machine.new) =
      unify_value 5 (Register.X 1) Machine.new :=
  claim_C10.2.2 5 (Register.X 1) Machine.new true rfl

/-- A `get?` hit implies the index is within bounds. -/
theorem get?_some_lt {α : Type} {l : List α} {n : Nat} {a : α}
    (h : l.get? n = some a) : n < l.length := by
  rcases Nat.lt_or_ge n l.length with h' | h'
  · exact h'
  · rw [List.get?_eq_none.mpr h'] at h
    cases h

/-- C6 (amended): given two dereferenced unequal store addresses with at
least one Ref side, `bind` writes into the heap exactly as claimed
provided the non-Ref side's cell is a `Str`: the Ref's heap cell receives
the other side's cell (in either argument order), and with two Refs the
higher address receives a reference to the lower one; the PDL, and every
component other than the heap, is untouched (the result is a heap-only
update of the input machine). When the non-Ref side's cell is a bare
`Func`, however, `bind` panics (`none`) instead of binding. -/
theorem claim_C6_amended :
    (∀ (m : Machine) (h1 : Nat) (a2 : Store) (str : Nat),
        m.heap.get? h1 = some (Cell.Ref h1) →
        get_store_cell m a2 = some (Cell.Str str) →
        bind (Store.HeapAddr h1) a2 m =
            some { m with heap := m.heap.set h1 (Cell.Str str) } ∧
          bind a2 (Store.HeapAddr h1) m =
            some { m with heap := m.heap.set h1 (Cell.Str str) }) ∧
      (∀ (m : Machine) (h1 h2 : Nat),
        m.heap.get? h1 = some (Cell.Ref h1) →
        m.heap.get? h2 = some (Cell.Ref h2) →
        h1 ≠ h2 →
        bind (Store.HeapAddr h1) (Store.HeapAddr h2) m =
          some { m with heap := m.heap.set (max h1 h2) (Cell.Ref (min h1 h2)) }) ∧
      (∀ (m : Machine) (h1 : Nat) (a2 : Store) (f : Functor),
        m.heap.get? h1 = some (Cell.Ref h1) →
        get_store_cell m a2 = some (Cell.Func f) →
        bind (Store.HeapAddr h1) a2 m = none ∧
          bind a2 (Store.HeapAddr h1) m = none) := by
  refine ⟨?_, ?_, ?_⟩
  · intro m h1 a2 str hr hs
    have hlt : h1 < m.heap.length := get?_some_lt hr
    have h1' : get_store_cell m (Store.HeapAddr h1) = some (Cell.Ref h1) := hr
    constructor
    · unfold bind
      rw [h1', hs]
      simp [Cell.address, Cell.is_ref, listSet?, hlt]
    · unfold bind
      rw [h1', hs]
      simp [Cell.address, Cell.is_ref, listSet?, hlt]
  · intro m h1 h2 hr1 hr2 hne
    have hlt1 : h1 < m.heap.length := get?_some_lt hr1
    have hlt2 : h2 < m.heap.length := get?_some_lt hr2
    have ha : get_store_cell m (Store.HeapAddr h1) = some (Cell.Ref h1) := hr1
    have hb : get_store_cell m (Store.HeapAddr h2) = some (Cell.Ref h2) := hr2
    unfold bind
    rw [ha, hb]
    rcases Nat.lt_or_gt_of_ne hne with hlt | hgt
    · have hmax : max h1 h2 = h2 := Nat.max_eq_right hlt.le
      have hmin : min h1 h2 = h1 := Nat.min_eq_left hlt.le
      simp [Cell.address, Cell.is_ref, listSet?, hlt1, hlt2, hmax, hmin,
        Nat.lt_asymm hlt]
    · have hmax : max h1 h2 = h1 := Nat.max_eq_left hgt.le
      have hmin : min h1 h2 = h2 := Nat.min_eq_right hgt.le
      simp [Cell.address, Cell.is_ref, listSet?, hlt1, hlt2, hmax, hmin, hgt]
  · intro m h1 a2 f hr hs
    have h1' : get_store_cell m (Store.HeapAddr h1) = some (Cell.Ref h1) := hr
    constructor
    · unfold bind
      rw [h1', hs]
      rfl
    · unfold bind
      rw [h1', hs]
      rfl

/-- Closed instance of the both-Refs part of C6 at a concrete two-cell
heap. -/
theorem claim_C6_witness :
    bind (Store.HeapAddr 0) (Store.HeapAddr 1) machineC6b =
      some { machineC6b with
               heap := machineC6b.heap.set (max 0 1) (Cell.Ref (min 0 1)) } :=
  claim_C6_amended.2.1 machineC6b 0 1 (by decide) (by decide) (by decide)

/-- C7 (amended): `deref` returns the first store address along the Ref
chain whose cell is a `Str`, a `Func`, or a Ref whose target equals the
current store index -- where for a register-resident cell that index is
the register's own index, so the result of dereferencing a Ref-holding
register need not be a heap address. Part one: any result of `deref`
satisfies this terminal condition. Part two: from a cell `Ref v` whose
target differs from the current store index, `deref` takes exactly one
step to the heap address `v`. -/
theorem claim_C7_amended :
    (∀ (n : Nat) (m : Machine) (s d : Store),
        derefF n m s = some d →
        ∃ c, get_store_cell m d = some c ∧
          (c.is_ref = false ∨ c = Cell.Ref d.address)) ∧
      (∀ (n : Nat) (m : Machine) (s : Store) (v : Nat),
        get_store_cell m s = some (Cell.Ref v) → v ≠ s.address →
        derefF (n + 1) m s = derefF n m (Store.HeapAddr v)) := by
  constructor
  · intro n
    induction n with
    | zero =>
      intro m s d h
      simp [derefF] at h
    | succ k ih =>
      intro m s d h
      cases s with
      | HeapAddr addr =>
        simp only [derefF] at h
        cases hc : m.heap.get? addr with
        | none => rw [hc] at h; simp at h
        | some cell =>
          rw [hc] at h
          cases cell with
          | Ref value =>
            simp only [Option.map_some'] at h
            by_cases hv : value = addr
            · simp [hv] at h
              subst h
              exact ⟨Cell.Ref value, by simpa [get_store_cell, hv] using hc,
                Or.inr (by simp [Store.address, hv])⟩
            · simp [hv] at h
              exact ih m _ d h
          | Str a =>
            simp only [Option.map_some'] at h
            simp at h
            subst h
            exact ⟨Cell.Str a, by simpa [get_store_cell] using hc, Or.inl rfl⟩
          | Func f =>
            simp only [Option.map_some'] at h
            simp at h
            subst h
            exact ⟨Cell.Func f, by simpa [get_store_cell] using hc, Or.inl rfl⟩
      | Register r =>
        simp only [derefF] at h
        cases hc : get_register m r with
        | none => rw [hc] at h; simp at h
        | some cell =>
          rw [hc] at h
          cases cell with
          | Ref value =>
            simp only [Option.map_some'] at h
            by_cases hv : value = r.address
            · simp [hv] at h
              subst h
              exact ⟨Cell.Ref value, by simp [get_store_cell, hc],
                Or.inr (by simp [Store.address, hv])⟩
            · simp [hv] at h
              exact ih m _ d h
          | Str a =>
            simp only [Option.map_some'] at h
            simp at h
            subst h
            exact ⟨Cell.Str a, by simp [get_store_cell, hc], Or.inl rfl⟩
          | Func f =>
            simp only [Option.map_some'] at h
            simp at h
            subst h
            exact ⟨Cell.Func f, by simp [get_store_cell, hc], Or.inl rfl⟩
  · intro n m s v hc hv
    cases s with
    | HeapAddr addr =>
      simp only [get_store_cell] at hc
      rw [List.get?_eq_getElem?] at hc
      simp [derefF, hc, Store.address] at hv ⊢
      simp [hv]
    | Register r =>
      simp only [get_store_cell] at hc
      simp [derefF, hc, Store.address] at hv ⊢
      simp [hv]

/-- Closed instance of the terminal condition of C7 at a concrete heap:
dereferencing heap address 0 (`Ref 1`) lands on heap address 1, whose cell
is the unbound `Ref 1`. -/
theorem claim_C7_witness :
    ∃ c, get_store_cell machineDeref (Store.HeapAddr 1) = some c ∧
      (c.is_ref = false ∨ c = Cell.Ref (Store.HeapAddr 1).address) :=
  claim_C7_amended.1 9 machineDeref (Store.HeapAddr 0) (Store.HeapAddr 1) (by decide)

/-! ## Congruence toolkit: the machine operations never read the fail flag
(and the operations used inside `unify` never read the PDL). -/

/-- `get_register` ignores the fail flag. -/
theorem get_register_set_fail (b : Bool) (m : Machine) (r : Register) :
    get_register (set_fail b m) r = get_register m r := by
  cases r <;> rfl

/-- `get_store_cell` ignores the fail flag. -/
theorem get_store_cell_set_fail (b : Bool) (m : Machine) (a : Store) :
    get_store_cell (set_fail b m) a = get_store_cell m a := by
  cases a with
  | HeapAddr x => rfl
  | Register r => cases r <;> rfl

/-- `deref` only reads the heap, the register block and the stack. -/
theorem derefF_congr (fuel : Nat) :
    ∀ (m1 m2 : Machine) (s : Store),
      m1.heap = m2.heap → m1.registers = m2.registers → m1.stack = m2.stack →
      derefF fuel m1 s = derefF fuel m2 s := by
  induction fuel with
  | zero => intros; rfl
  | succ k ih =>
    intro m1 m2 s hh hr hs
    have hgr : ∀ r, get_register m1 r = get_register m2 r := by
      intro r
      cases r with
      | X xi => simp [get_register, get_x, hr]
      | Y yi => simp [get_register, get_y, hr, hs]
    cases s with
    | HeapAddr addr =>
      simp only [derefF, hh]
      cases hc : m2.heap.get? addr with
      | none => rfl
      | some cell =>
        cases cell with
        | Ref value =>
          dsimp only [Option.map]
          by_cases hv : value = addr
          · rw [if_neg (by simp [hv]), if_neg (by simp [hv])]
          · rw [if_pos hv, if_pos hv]
            exact ih m1 m2 _ hh hr hs
        | Str a => rfl
        | Func f => rfl
    | Register r =>
      simp only [derefF, hgr r]
      cases hc : get_register m2 r with
      | none => rfl
      | some cell =>
        cases cell with
        | Ref value =>
          dsimp only [Option.map]
          by_cases hv : value = r.address
          · rw [if_neg (by simp [hv]), if_neg (by simp [hv])]
          · rw [if_pos hv, if_pos hv]
            exact ih m1 m2 _ hh hr hs
        | Str a => rfl
        | Func f => rfl

/-- `deref` ignores the fail flag. -/
theorem derefF_set_fail (fuel : Nat) (b : Bool) (m : Machine) (s : Store) :
    derefF fuel (set_fail b m) s = derefF fuel m s :=
  derefF_congr fuel _ _ s rfl rfl rfl

/-- `bind` commutes with setting the fail flag. -/
theorem bind_set_fail (b : Bool) (a1 a2 : Store) (m : Machine) :
    bind a1 a2 (set_fail b m) = (bind a1 a2 m).map (set_fail b) := by
  unfold bind
  rw [get_store_cell_set_fail, get_store_cell_set_fail]
  dsimp only [set_fail]
  cases get_store_cell m a1 with
  | none => rfl
  | some c1 =>
    cases get_store_cell m a2 with
    | none => rfl
    | some c2 =>
      try dsimp only
      cases c1.address with
      | none => rfl
      | some v1 =>
        cases c2.address with
        | none => rfl
        | some v2 =>
          try dsimp only
          by_cases hcond : (c1.is_ref && (!c2.is_ref || decide (v2 < v1))) = true
          · rw [if_pos hcond, if_pos hcond]
            cases listSet? m.heap v1 c2 <;> rfl
          · rw [if_neg hcond, if_neg hcond]
            cases listSet? m.heap v2 c1 <;> rfl

/-- Projections of `set_fail`. -/
theorem set_fail_heap (b : Bool) (m : Machine) : (set_fail b m).heap = m.heap := rfl

/-- Projections of `set_fail`. -/
theorem set_fail_registers (b : Bool) (m : Machine) :
    (set_fail b m).registers = m.registers := rfl

/-- Projections of `set_fail`. -/
theorem set_fail_mode (b : Bool) (m : Machine) : (set_fail b m).mode = m.mode := rfl

/-- `push_heap` commutes with `set_fail`. -/
theorem push_heap_set_fail (c : Cell) (b : Bool) (m : Machine) :
    push_heap c (set_fail b m) = set_fail b (push_heap c m) := rfl

/-- A mapped option with pointwise `set_fail`-shifted functions. -/
theorem map_fail_comm {α : Type} (o : Option α) (b : Bool) (f g : α → Machine)
    (h : ∀ a, f a = set_fail b (g a)) : o.map f = (o.map g).map (set_fail b) := by
  cases o with
  | none => rfl
  | some a => simp [h a]

/-- Binding after a `set_fail`-mapped option. -/
theorem bind_fail_comm (o : Option Machine) (b : Bool) (F1 F2 : Machine → Option Machine)
    (h : ∀ x, F1 (set_fail b x) = (F2 x).map (set_fail b)) :
    (o.map (set_fail b)).bind F1 = (o.bind F2).map (set_fail b) := by
  cases o with
  | none => rfl
  | some a => simpa using h a

/-- Binding `set_fail`-shifted continuations. -/
theorem bind_fail_comm' {α : Type} (o : Option α) (b : Bool) (F1 F2 : α → Option Machine)
    (h : ∀ x, F1 x = (F2 x).map (set_fail b)) :
    o.bind F1 = (o.bind F2).map (set_fail b) := by
  cases o with
  | none => rfl
  | some a => simpa using h a

/-- Mapping a `set_fail`-commuting function over a `set_fail`-mapped option. -/
theorem map_fail_swap (o : Option Machine) (b : Bool) (g : Machine → Machine)
    (h : ∀ x, g (set_fail b x) = set_fail b (g x)) :
    (o.map (set_fail b)).map g = (o.map g).map (set_fail b) := by
  cases o with
  | none => rfl
  | some a => simp [h a]

/-- `eraseFail` cancels a pending `set_fail`. -/
theorem map_set_fail_erase (o : Option Machine) (b : Bool) :
    ((o.map (set_fail b)).map eraseFail) = o.map eraseFail := by
  cases o <;> rfl

/-- `insert_x` commutes with `set_fail`. -/
theorem insert_x_set_fail (xi : Nat) (c : Cell) (b : Bool) (m : Machine) :
    insert_x xi c (set_fail b m) = (insert_x xi c m).map (set_fail b) := by
  cases xi with
  | zero => rfl
  | succ i =>
    dsimp only [insert_x, set_fail]
    exact map_fail_comm _ _ _ _ (fun x' => rfl)

/-- `insert_y` commutes with `set_fail`. -/
theorem insert_y_set_fail (yi : Nat) (c : Cell) (b : Bool) (m : Machine) :
    insert_y yi c (set_fail b m) = (insert_y yi c m).map (set_fail b) := by
  dsimp only [insert_y, set_fail]
  exact map_fail_comm _ _ _ _ (fun st => rfl)

/-- `insert_register` commutes with `set_fail`. -/
theorem insert_register_set_fail (r : Register) (c : Cell) (b : Bool) (m : Machine) :
    insert_register r c (set_fail b m) = (insert_register r c m).map (set_fail b) := by
  cases r with
  | X xi => exact insert_x_set_fail xi c b m
  | Y yi => exact insert_y_set_fail yi c b m

/-- `put_structure` commutes with `set_fail`. -/
theorem put_structure_set_fail (f : Functor) (xi : Register) (b : Bool) (m : Machine) :
    put_structure f xi (set_fail b m) = (put_structure f xi m).map (set_fail b) := by
  dsimp only [put_structure]
  rw [set_fail_registers, push_heap_set_fail, push_heap_set_fail, insert_register_set_fail]
  exact map_fail_swap _ _ _ (fun x => rfl)

/-- `put_variable` commutes with `set_fail`. -/
theorem put_variable_set_fail (xn ai : Register) (b : Bool) (m : Machine) :
    put_variable xn ai (set_fail b m) = (put_variable xn ai m).map (set_fail b) := by
  dsimp only [put_variable]
  rw [set_fail_registers, push_heap_set_fail, insert_register_set_fail]
  refine bind_fail_comm _ _ _ _ (fun x => ?_)
  rw [insert_register_set_fail]
  exact map_fail_swap _ _ _ (fun y => rfl)

/-- `put_value` commutes with `set_fail`. -/
theorem put_value_set_fail (xn ai : Register) (b : Bool) (m : Machine) :
    put_value xn ai (set_fail b m) = (put_value xn ai m).map (set_fail b) := by
  dsimp only [put_value]
  rw [get_register_set_fail]
  exact bind_fail_comm' _ _ _ _ (fun c => insert_register_set_fail ai c b m)

/-- `get_variable` commutes with `set_fail`. -/
theorem get_variable_set_fail (xn ai : Register) (b : Bool) (m : Machine) :
    get_variable xn ai (set_fail b m) = (get_variable xn ai m).map (set_fail b) := by
  dsimp only [get_variable]
  rw [get_register_set_fail]
  exact bind_fail_comm' _ _ _ _ (fun c => insert_register_set_fail xn c b m)

/-- `set_variable` commutes with `set_fail`. -/
theorem set_variable_set_fail (xi : Register) (b : Bool) (m : Machine) :
    set_variable xi (set_fail b m) = (set_variable xi m).map (set_fail b) := by
  dsimp only [set_variable]
  rw [set_fail_registers, push_heap_set_fail, insert_register_set_fail]
  exact map_fail_swap _ _ _ (fun x => rfl)

/-- `set_value` commutes with `set_fail`. -/
theorem set_value_set_fail (xi : Register) (b : Bool) (m : Machine) :
    set_value xi (set_fail b m) = (set_value xi m).map (set_fail b) := by
  dsimp only [set_value]
  rw [get_register_set_fail]
  exact map_fail_comm _ _ _ _ (fun c => rfl)

/-- `unify_variable` commutes with `set_fail`. -/
theorem unify_variable_set_fail (xi : Register) (b : Bool) (m : Machine) :
    unify_variable xi (set_fail b m) = (unify_variable xi m).map (set_fail b) := by
  cases hmode : m.mode with
  | Read =>
    have hmode' : (set_fail b m).mode = Mode.Read := hmode
    dsimp only [unify_variable]
    rw [hmode', hmode, set_fail_heap, set_fail_registers]
    try dsimp only
    cases m.heap.get? m.registers.s with
    | none => rfl
    | some c =>
      dsimp only [Option.bind]
      rw [insert_register_set_fail]
      exact map_fail_swap _ _ _ (fun x => rfl)
  | Write =>
    have hmode' : (set_fail b m).mode = Mode.Write := hmode
    dsimp only [unify_variable]
    rw [hmode', hmode, set_fail_registers, push_heap_set_fail, insert_register_set_fail]
    try dsimp only
    cases insert_register xi (Cell.Ref m.registers.h) (push_heap (Cell.Ref m.registers.h) m) <;>
      rfl

/-- `unify` overwrites the incoming fail flag. -/
theorem unify_set_fail (fuel : Nat) (a1 a2 : Store) (b : Bool) (m : Machine) :
    unify fuel a1 a2 (set_fail b m) = unify fuel a1 a2 m := by
  cases m
  rfl

/-- `get_value` overwrites the incoming fail flag. -/
theorem get_value_set_fail (fuel : Nat) (xn ai : Register) (b : Bool) (m : Machine) :
    get_value fuel xn ai (set_fail b m) = get_value fuel xn ai m :=
  unify_set_fail fuel _ _ b m

/-- `unify_value` behaves the same up to the final fail flag. -/
theorem unify_value_mod_fail (fuel : Nat) (xi : Register) (b : Bool) (m : Machine) :
    (unify_value fuel xi (set_fail b m)).map eraseFail =
      (unify_value fuel xi m).map eraseFail := by
  cases hmode : m.mode with
  | Read =>
    have habs : unify_value fuel xi (set_fail b m) = unify_value fuel xi m := by
      cases m
      cases hmode
      rfl
    rw [habs]
  | Write =>
    have hmode' : (set_fail b m).mode = Mode.Write := hmode
    dsimp only [unify_value]
    rw [hmode', hmode, get_register_set_fail]
    try dsimp only
    cases get_register m xi <;> rfl

/-- `allocate` commutes with `set_fail`. -/
theorem allocate_set_fail (n : Nat) (b : Bool) (m : Machine) :
    allocate n (set_fail b m) = (allocate n m).map (set_fail b) := by
  dsimp only [allocate]
  rw [set_fail_registers, show (set_fail b m).stack = m.stack from rfl]
  refine bind_fail_comm' _ _ _ _ (fun st => ?_)
  cases st.get? (m.registers.e + 2) with
  | none => rfl
  | some fr =>
    cases fr with
    | none => rfl
    | some f0 =>
      cases f0 with
      | Cell c => rfl
      | Code temp =>
        try dsimp only
        refine bind_fail_comm' _ _ _ _ (fun st2 => ?_)
        exact map_fail_comm _ _ _ _ (fun st3 => rfl)

/-- `deallocate` commutes with `set_fail`. -/
theorem deallocate_set_fail (b : Bool) (m : Machine) :
    deallocate (set_fail b m) = (deallocate m).map (set_fail b) := by
  dsimp only [deallocate]
  rw [set_fail_registers, show (set_fail b m).stack = m.stack from rfl]
  cases m.stack.get? (m.registers.e + 1) with
  | none => rfl
  | some fr1 =>
    cases fr1 with
    | none => rfl
    | some f1 =>
      cases f1 with
      | Cell c => rfl
      | Code np =>
        cases m.stack.get? m.registers.e with
        | none => rfl
        | some fr2 =>
          cases fr2 with
          | none => rfl
          | some f2 =>
            cases f2 with
            | Cell c => rfl
            | Code ne => rfl

/-- `call` commutes with `set_fail`. -/
theorem call_set_fail (f : Functor) (b : Bool) (m : Machine) :
    call f (set_fail b m) = (call f m).map (set_fail b) := by
  dsimp only [call]
  rw [set_fail_registers, show (set_fail b m).code = m.code from rfl]
  exact map_fail_comm _ _ _ _ (fun a => rfl)

/-- `proceed` commutes with `set_fail`. -/
theorem proceed_set_fail (b : Bool) (m : Machine) :
    proceed (set_fail b m) = (proceed m).map (set_fail b) := rfl

/-- `get_structure` behaves the same up to the final fail flag. -/
theorem get_structure_mod_fail (fuel : Nat) (f : Functor) (xi : Register) (b : Bool)
    (m : Machine) :
    (get_structure fuel f xi (set_fail b m)).map eraseFail =
      (get_structure fuel f xi m).map eraseFail := by
  dsimp only [get_structure]
  rw [derefF_set_fail, set_fail_heap, set_fail_registers, get_register_set_fail]
  cases derefF fuel m (Store.Register xi) with
  | none => rfl
  | some d =>
    simp only [Option.some_bind]
    cases d with
    | HeapAddr addr =>
      try dsimp only
      cases m.heap.get? addr with
      | none => rfl
      | some cell =>
        simp only [Option.map_some', Option.some_bind]
        cases cell with
        | Ref v =>
          try dsimp only
          rw [push_heap_set_fail, push_heap_set_fail, bind_set_fail]
          cases bind (Store.HeapAddr addr) (Store.HeapAddr m.registers.h)
              (push_heap (Cell.Func f) (push_heap (Cell.Str (m.registers.h + 1)) m)) <;>
            rfl
        | Str a =>
          try dsimp only
          cases m.heap.get? a with
          | none => rfl
          | some c2 =>
            cases c2 with
            | Str x => rfl
            | Ref x => rfl
            | Func g =>
              try dsimp only
              split <;> rfl
        | Func g => rfl
    | Register r =>
      try dsimp only
      cases get_register m xi with
      | none => rfl
      | some cell =>
        simp only [Option.map_some', Option.some_bind]
        cases cell with
        | Ref v =>
          try dsimp only
          rw [push_heap_set_fail, push_heap_set_fail, bind_set_fail]
          cases bind (Store.HeapAddr r.address) (Store.HeapAddr m.registers.h)
              (push_heap (Cell.Func f) (push_heap (Cell.Str (m.registers.h + 1)) m)) <;>
            rfl
        | Str a =>
          try dsimp only
          cases m.heap.get? a with
          | none => rfl
          | some c2 =>
            cases c2 with
            | Str x => rfl
            | Ref x => rfl
            | Func g =>
              try dsimp only
              split <;> rfl
        | Func g => rfl

/-- One executed instruction never reads the fail flag: executing from a
state with any fail value yields the same result up to the final flag. -/
theorem execute_mod_fail (fuel : Nat) (i : Instruction) (b : Bool) (m : Machine) :
    (execute fuel i (set_fail b m)).map eraseFail = (execute fuel i m).map eraseFail := by
  cases i with
  | PutStructure f x =>
    dsimp only [execute]
    rw [put_structure_set_fail]
    exact map_set_fail_erase _ _
  | GetStructure f x => exact get_structure_mod_fail fuel f x b m
  | SetValue x =>
    dsimp only [execute]
    rw [set_value_set_fail]
    exact map_set_fail_erase _ _
  | UnifyValue x => exact unify_value_mod_fail fuel x b m
  | SetVariable x =>
    dsimp only [execute]
    rw [set_variable_set_fail]
    exact map_set_fail_erase _ _
  | UnifyVariable x =>
    dsimp only [execute]
    rw [unify_variable_set_fail]
    exact map_set_fail_erase _ _
  | PutVariable x a =>
    dsimp only [execute]
    rw [put_variable_set_fail]
    exact map_set_fail_erase _ _
  | PutValue x a =>
    dsimp only [execute]
    rw [put_value_set_fail]
    exact map_set_fail_erase _ _
  | GetValue x a =>
    dsimp only [execute]
    rw [get_value_set_fail]
  | GetVariable x a =>
    dsimp only [execute]
    rw [get_variable_set_fail]
    exact map_set_fail_erase _ _
  | Allocate n =>
    dsimp only [execute]
    rw [allocate_set_fail]
    exact map_set_fail_erase _ _
  | Deallocate =>
    dsimp only [execute]
    rw [deallocate_set_fail]
    exact map_set_fail_erase _ _
  | Call f =>
    dsimp only [execute]
    rw [call_set_fail]
    exact map_set_fail_erase _ _
  | Proceed =>
    dsimp only [execute]
    rw [proceed_set_fail]
    exact map_set_fail_erase _ _

/-- C3 (amended): the executor never checks the fail flag. Running the
executor loop from a state with the fail flag forced to any value
executes exactly the same instructions and produces the same machine,
apart from the final value of the flag itself. -/
theorem claim_C3_amended (fuel : Nat) (instrs : List Instruction) (b : Bool) (m : Machine) :
    (run fuel instrs (set_fail b m)).map eraseFail = (run fuel instrs m).map eraseFail := by
  induction instrs generalizing b m with
  | nil => rfl
  | cons i rest ih =>
    by_cases hc : isCtrl i
    · dsimp only [run]
      rw [if_pos hc, if_pos hc]
      exact execute_mod_fail fuel i b m
    · dsimp only [run]
      rw [if_neg hc, if_neg hc]
      have hex := execute_mod_fail fuel i b m
      cases h1 : execute fuel i (set_fail b m) with
      | none =>
        rw [h1] at hex
        cases h2 : execute fuel i m with
        | none => simp
        | some m2 =>
          rw [h2] at hex
          simp at hex
      | some m1 =>
        rw [h1] at hex
        cases h2 : execute fuel i m with
        | none =>
          rw [h2] at hex
          simp at hex
        | some m2 =>
          rw [h2] at hex
          simp only [Option.map_some', Option.some.injEq] at hex
          have hm1 : m1 = set_fail m1.fail m2 := by
            calc m1 = set_fail m1.fail (eraseFail m1) := rfl
              _ = set_fail m1.fail (eraseFail m2) := by rw [hex]
              _ = set_fail m1.fail m2 := rfl
          simp only [Option.some_bind]
          rw [hm1]
          exact ih m1.fail m2

/-! ## Symmetry of unification (C9) -/

/-- `swapAdj` preserves emptiness. -/
theorem swapAdj_isEmpty {α : Type} (l : List α) : (swapAdj l).isEmpty = l.isEmpty := by
  cases l with
  | nil => rfl
  | cons a t => cases t <;> rfl

/-- `swapAdj` on a two-element prefix. -/
theorem swapAdj_cons2 {α : Type} (a b : α) (t : List α) :
    swapAdj (a :: b :: t) = b :: a :: swapAdj t := rfl

/-- `swapAdj` distributes over appending after an even-length prefix. -/
theorem swapAdj_append_even {α : Type} :
    ∀ (A B : List α), A.length % 2 = 0 → swapAdj (A ++ B) = swapAdj A ++ swapAdj B
  | [], B, _ => rfl
  | [_], _, h => by simp at h
  | a :: b :: A', B, h => by
    have h' : A'.length % 2 = 0 := by
      simp only [List.length_cons] at h
      omega
    simp only [List.cons_append, swapAdj_cons2, swapAdj_append_even A' B h']

/-- `pushPairs` prepends its pairs. -/
theorem pushPairs_append (v1 v2 : Nat) :
    ∀ (n : Nat) (l : List Store), pushPairs v1 v2 n l = pushPairs v1 v2 n [] ++ l := by
  intro n
  induction n with
  | zero => intro l; rfl
  | succ k ih =>
    intro l
    dsimp only [pushPairs]
    rw [ih l, List.cons_append, List.cons_append]

/-- The pair block pushed by `pushPairs` has even length. -/
theorem pushPairs_nil_length (v1 v2 : Nat) :
    ∀ n : Nat, (pushPairs v1 v2 n []).length = 2 * n := by
  intro n
  induction n with
  | zero => rfl
  | succ k ih =>
    simp only [pushPairs, List.length_cons, ih]
    omega

/-- Swapping the argument blocks: pushing with the sides exchanged is the
adjacent swap of pushing them in order. -/
theorem pushPairs_swap_nil (v1 v2 : Nat) :
    ∀ n : Nat, pushPairs v2 v1 n [] = swapAdj (pushPairs v1 v2 n []) := by
  intro n
  induction n with
  | zero => rfl
  | succ k ih =>
    simp only [pushPairs]
    rw [pushPairs_append, pushPairs_append v1 v2 k]
    rw [show ∀ x y (A B : List Store), swapAdj (x :: y :: (A ++ B)) = y :: x :: swapAdj (A ++ B)
      from fun x y A B => rfl]
    rw [← pushPairs_append, ← pushPairs_append, ih]

/-- `get_store_cell` only reads the heap, the register block and the stack. -/
theorem get_store_cell_congr (m1 m2 : Machine) (a : Store)
    (hh : m1.heap = m2.heap) (hr : m1.registers = m2.registers)
    (hs : m1.stack = m2.stack) :
    get_store_cell m1 a = get_store_cell m2 a := by
  cases a with
  | HeapAddr x => simp [get_store_cell, hh]
  | Register r =>
    cases r with
    | X xi => simp [get_store_cell, get_register, get_x, hr]
    | Y yi => simp [get_store_cell, get_register, get_y, hr, hs]

/-- `get_functor` only reads the heap. -/
theorem get_functor_congr (m1 m2 : Machine) (c : Cell) (hh : m1.heap = m2.heap) :
    get_functor m1 c = get_functor m2 c := by
  cases c <;> simp [get_functor, hh]

/-- `bind` ignores the PDL and leaves it unchanged. -/
theorem bind_pdl (d1 d2 : Store) (heap : List Cell) (p1 p2 : List Store)
    (code : Code) (stack : List (Option Frame)) (regs : Registers) (mode : Mode)
    (fl : Bool) :
    bind d1 d2 (Machine.mk heap p1 code stack regs mode fl) =
      (bind d1 d2 (Machine.mk heap p2 code stack regs mode fl)).map (setPdl p1) := by
  unfold bind
  have hgs : ∀ x, get_store_cell (Machine.mk heap p1 code stack regs mode fl) x =
      get_store_cell (Machine.mk heap p2 code stack regs mode fl) x :=
    fun x => get_store_cell_congr _ _ x rfl rfl rfl
  rw [hgs, hgs]
  cases get_store_cell (Machine.mk heap p2 code stack regs mode fl) d1 with
  | none => rfl
  | some c1 =>
    cases get_store_cell (Machine.mk heap p2 code stack regs mode fl) d2 with
    | none => rfl
    | some c2 =>
      try dsimp only
      cases c1.address with
      | none => rfl
      | some v1 =>
        cases c2.address with
        | none => rfl
        | some v2 =>
          try dsimp only
          by_cases hcond : (c1.is_ref && (!c2.is_ref || decide (v2 < v1))) = true
          · rw [if_pos hcond, if_pos hcond]
            cases listSet? heap v1 c2 <;> rfl
          · rw [if_neg hcond, if_neg hcond]
            cases listSet? heap v2 c1 <;> rfl

/-- A successful `bind` only replaces the heap. -/
theorem bind_heap_only (d1 d2 : Store) (m m' : Machine)
    (h : bind d1 d2 m = some m') : ∃ hp, m' = { m with heap := hp } := by
  unfold bind at h
  cases hc1 : get_store_cell m d1 with
  | none => rw [hc1] at h; cases h
  | some c1 =>
    rw [hc1] at h
    cases hc2 : get_store_cell m d2 with
    | none => rw [hc2] at h; cases h
    | some c2 =>
      rw [hc2] at h
      dsimp only at h
      cases ha1 : c1.address with
      | none => rw [ha1] at h; cases h
      | some v1 =>
        rw [ha1] at h
        cases ha2 : c2.address with
        | none => rw [ha2] at h; cases h
        | some v2 =>
          rw [ha2] at h
          dsimp only at h
          by_cases hcond : (c1.is_ref && (!c2.is_ref || decide (v2 < v1))) = true
          · rw [if_pos hcond] at h
            rcases Option.map_eq_some'.mp h with ⟨hp, _, hfm⟩
            exact ⟨hp, hfm.symm⟩
          · rw [if_neg hcond] at h
            rcases Option.map_eq_some'.mp h with ⟨hp, _, hfm⟩
            exact ⟨hp, hfm.symm⟩

/-- With at least one Ref side, `bind` is symmetric in its two store
addresses: the older-wins rule depends only on the addresses, not the
argument order. -/
theorem bind_symm (d1 d2 : Store) (m : Machine) (c1 c2 : Cell)
    (h1 : get_store_cell m d1 = some c1) (h2 : get_store_cell m d2 = some c2)
    (href : (c1.is_ref || c2.is_ref) = true) :
    bind d2 d1 m = bind d1 d2 m := by
  unfold bind
  rw [h1, h2]
  cases c1 with
  | Ref v1 =>
    cases c2 with
    | Ref v2 =>
      simp only [Cell.address, Cell.is_ref, Bool.true_and, Bool.not_true, Bool.false_or]
      rcases Nat.lt_trichotomy v1 v2 with hlt | heq | hgt
      · rw [if_pos (by simpa using hlt), if_neg (by simpa using Nat.lt_asymm hlt)]
      · subst heq
        rfl
      · rw [if_neg (by simpa using Nat.lt_asymm hgt), if_pos (by simpa using hgt)]
    | Str s2 =>
      simp only [Cell.address, Cell.is_ref, Bool.false_and, Bool.true_and,
        Bool.not_false, Bool.true_or]
      rw [if_neg (by simp), if_pos (by simp)]
    | Func f2 => rfl
  | Str s1 =>
    cases c2 with
    | Ref v2 =>
      simp only [Cell.address, Cell.is_ref, Bool.false_and, Bool.true_and,
        Bool.not_false, Bool.true_or]
      rw [if_pos (by simp), if_neg (by simp)]
    | Str s2 => simp [Cell.is_ref] at href
    | Func f2 => simp [Cell.is_ref] at href
  | Func f1 =>
    cases c2 with
    | Ref v2 => rfl
    | Str s2 => simp [Cell.is_ref] at href
    | Func f2 => simp [Cell.is_ref] at href

/-- The drain loop of `unify` is symmetric under swapping the members of
each pending pair: with the pair region of the PDL adjacent-swapped, the
loop performs the same heap writes and reaches the same state apart from
the (mirrored) leftover PDL. -/
theorem drain_mirror (dfuel : Nat) :
    ∀ (fuel : Nat) (P t : List Store) (m : Machine), P.length % 2 = 0 →
      (drain dfuel fuel (setPdl (swapAdj P ++ t) m)).map erasePdl =
        (drain dfuel fuel (setPdl (P ++ t) m)).map erasePdl := by
  intro fuel
  induction fuel with
  | zero => intro P t m _; rfl
  | succ k ih =>
    intro P t m hev
    cases m with
    | mk heap pdl code stack regs mode fl =>
    rcases P with _ | ⟨a1, P⟩
    · rfl
    rcases P with _ | ⟨a2, P'⟩
    · simp at hev
    have hev' : P'.length % 2 = 0 := by
      simp only [List.length_cons] at hev
      omega
    simp only [swapAdj_cons2, List.cons_append]
    dsimp only [drain, setPdl]
    simp only [List.isEmpty_cons, Bool.false_or]
    by_cases hfl : fl = true
    · rw [if_pos hfl, if_pos hfl]
      rfl
    · rw [if_neg hfl, if_neg hfl]
      try dsimp only
      have hder : ∀ x,
          derefF dfuel (Machine.mk heap (swapAdj P' ++ t) code stack regs mode fl) x =
            derefF dfuel (Machine.mk heap (P' ++ t) code stack regs mode fl) x :=
        fun x => derefF_congr dfuel _ _ x rfl rfl rfl
      have hgsc : ∀ x,
          get_store_cell (Machine.mk heap (swapAdj P' ++ t) code stack regs mode fl) x =
            get_store_cell (Machine.mk heap (P' ++ t) code stack regs mode fl) x :=
        fun x => get_store_cell_congr _ _ x rfl rfl rfl
      have hgf : ∀ c,
          get_functor (Machine.mk heap (swapAdj P' ++ t) code stack regs mode fl) c =
            get_functor (Machine.mk heap (P' ++ t) code stack regs mode fl) c :=
        fun c => get_functor_congr _ _ c rfl
      have hbind : ∀ x y,
          bind x y (Machine.mk heap (swapAdj P' ++ t) code stack regs mode fl) =
            (bind x y (Machine.mk heap (P' ++ t) code stack regs mode fl)).map
              (setPdl (swapAdj P' ++ t)) :=
        fun x y => bind_pdl x y heap (swapAdj P' ++ t) (P' ++ t) code stack regs mode fl
      simp only [hder, hgsc, hgf, hbind]
      cases hd1 : derefF dfuel (Machine.mk heap (P' ++ t) code stack regs mode fl) a1 with
      | none =>
        cases derefF dfuel (Machine.mk heap (P' ++ t) code stack regs mode fl) a2 <;> rfl
      | some d1 =>
        cases hd2 : derefF dfuel (Machine.mk heap (P' ++ t) code stack regs mode fl) a2 with
        | none => rfl
        | some d2 =>
          try dsimp only
          by_cases hdeq : d1 = d2
          · subst hdeq
            rw [if_pos rfl, if_pos rfl]
            exact ih P' t (Machine.mk heap t code stack regs mode fl) hev'
          · rw [if_neg (fun hh => hdeq hh.symm), if_neg hdeq]
            cases hc1 : get_store_cell (Machine.mk heap (P' ++ t) code stack regs mode fl) d1 with
            | none =>
              cases get_store_cell (Machine.mk heap (P' ++ t) code stack regs mode fl) d2 <;> rfl
            | some c1 =>
              cases hc2 : get_store_cell (Machine.mk heap (P' ++ t) code stack regs mode fl) d2 with
              | none => rfl
              | some c2 =>
                try dsimp only
                by_cases href : (c1.is_ref || c2.is_ref) = true
                · rw [if_pos (by rw [Bool.or_comm]; exact href), if_pos href]
                  rw [bind_symm d1 d2 _ c1 c2 hc1 hc2 href]
                  cases hb : bind d1 d2 (Machine.mk heap (P' ++ t) code stack regs mode fl) with
                  | none => rfl
                  | some mb =>
                    simp only [Option.map_some']
                    try dsimp only
                    rcases bind_heap_only d1 d2 _ mb hb with ⟨hp, hmb⟩
                    subst hmb
                    exact ih P' t (Machine.mk hp t code stack regs mode fl) hev'
                · rw [if_neg (by rw [Bool.or_comm]; exact href), if_neg href]
                  cases ha1 : c1.address with
                  | none => cases c2.address <;> rfl
                  | some v1 =>
                    cases ha2 : c2.address with
                    | none => rfl
                    | some v2 =>
                      try dsimp only
                      cases hf1 : get_functor (Machine.mk heap (P' ++ t) code stack regs mode fl) c1 with
                      | none =>
                        cases get_functor (Machine.mk heap (P' ++ t) code stack regs mode fl) c2 <;> rfl
                      | some f1 =>
                        cases hf2 : get_functor (Machine.mk heap (P' ++ t) code stack regs mode fl) c2 with
                        | none => rfl
                        | some f2 =>
                          try dsimp only
                          by_cases hfeq : f1 = f2
                          · rw [if_pos hfeq.symm, if_pos hfeq]
                            subst hfeq
                            have hpfx : (pushPairs v1 v2 f1.arity []).length % 2 = 0 := by
                              rw [pushPairs_nil_length]
                              omega
                            rw [pushPairs_append v2 v1, pushPairs_append v1 v2,
                              pushPairs_swap_nil v1 v2, ← List.append_assoc,
                              ← List.append_assoc, ← swapAdj_append_even _ _ hpfx]
                            exact ih (pushPairs v1 v2 f1.arity [] ++ P') t
                              (Machine.mk heap t code stack regs mode fl)
                              (by
                                simp only [List.length_append, pushPairs_nil_length]
                                omega)
                          · rw [if_neg (fun hh => hfeq hh.symm), if_neg hfeq]
                            exact ih P' t (Machine.mk heap t code stack regs mode true) hev'

/-- C9 (confirmed, in a strengthened form): running `unify(A,B)` and
`unify(B,A)` from the same machine state yields the same result up to the
leftover PDL: in particular the same fail outcome, the same heap (hence
identical bindings -- the older-wins rule is order-independent, so not
even the Ref choice differs), and the same registers. -/
theorem claim_C9 (fuel : Nat) (a1 a2 : Store) (m : Machine) :
    (unify fuel a2 a1 m).map erasePdl = (unify fuel a1 a2 m).map erasePdl := by
  cases m with
  | mk heap pdl code stack regs mode fl =>
    exact drain_mirror fuel fuel [a2, a1] pdl
      (Machine.mk heap pdl code stack regs mode false) (by simp)

/-! ## Permanent-variable analysis (C2) -/

/-- Lookup after an overwriting insert. -/
theorem lookupA_insertA {α β : Type} [DecidableEq α] (l : List (α × β)) (k : α) (n : β)
    (a : α) : lookupA (insertA l k n) a = if k = a then some n else lookupA l a := by
  induction l with
  | nil => rfl
  | cons p t ih =>
    obtain ⟨k', v'⟩ := p
    by_cases hk : k' = k
    · subst hk
      by_cases ha : k' = a <;> simp [insertA, lookupA, ha]
    · simp only [insertA, hk, if_false, ite_false, lookupA]
      by_cases ha : k' = a
      · subst ha
        simp [lookupA, Ne.symm hk]
      · simp [lookupA, ha, ih]

/-- Lookup after the first counting pass of `collect_permanent_variables`:
every variable of the chunk is mapped to 1. -/
theorem lookupA_phase1 (v : Var) :
    ∀ (l : List Var) (acc : List (Var × Nat)),
      lookupA (l.foldl (fun c u => insertA c u 1) acc) v =
        if v ∈ l then some 1 else lookupA acc v := by
  intro l
  induction l with
  | nil => intro acc; simp
  | cons u l' ih =>
    intro acc
    simp only [List.foldl_cons]
    rw [ih (insertA acc u 1), lookupA_insertA]
    by_cases hv : v ∈ l'
    · simp [hv]
    · by_cases hu : u = v
      · subst hu
        simp [hv]
      · simp [hv, hu, Ne.symm hu, List.mem_cons]

/-- Lookup value after the per-occurrence counting pass: each occurrence
adds one. -/
theorem lookupA_phase2 (v : Var) :
    ∀ (l : List Var) (acc : List (Var × Nat)),
      (lookupA (l.foldl (fun counts u =>
          match lookupA counts u with
          | some c => insertA counts u (c + 1)
          | none => insertA counts u 1) acc) v).getD 0 =
        (lookupA acc v).getD 0 + l.count v := by
  intro l
  induction l with
  | nil => intro acc; simp
  | cons u l' ih =>
    intro acc
    simp only [List.foldl_cons]
    rw [ih]
    by_cases hu : u = v
    · subst hu
      cases hl : lookupA acc u with
      | none =>
        simp [hl, lookupA_insertA, List.count_cons]
        omega
      | some c =>
        simp [hl, lookupA_insertA, List.count_cons]
        omega
    · cases hl : lookupA acc u with
      | none => simp [hl, lookupA_insertA, hu, Ne.symm hu, List.count_cons]
      | some c => simp [hl, lookupA_insertA, hu, Ne.symm hu, List.count_cons]

/-- Keys present after an insert. -/
theorem mem_keys_insertA {α β : Type} [DecidableEq α] (l : List (α × β)) (k : α) (n : β)
    (x : α) : x ∈ (insertA l k n).map Prod.fst ↔ x = k ∨ x ∈ l.map Prod.fst := by
  induction l with
  | nil => simp [insertA]
  | cons p t ih =>
    obtain ⟨k', v'⟩ := p
    by_cases hk : k' = k
    · subst hk
      simp [insertA]
    · simp only [insertA, hk, if_false, ite_false, List.map_cons, List.mem_cons, ih]
      tauto

/-- An overwriting insert keeps the keys duplicate-free. -/
theorem insertA_keys_nodup {α β : Type} [DecidableEq α] (l : List (α × β)) (k : α) (n : β)
    (h : (l.map Prod.fst).Nodup) : ((insertA l k n).map Prod.fst).Nodup := by
  induction l with
  | nil => simp [insertA]
  | cons p t ih =>
    obtain ⟨k', v'⟩ := p
    simp only [List.map_cons, List.nodup_cons] at h
    by_cases hk : k' = k
    · subst hk
      simp only [insertA, if_pos rfl, ite_true, List.map_cons, List.nodup_cons]
      exact ⟨h.1, h.2⟩
    · simp only [insertA, hk, if_false, ite_false, List.map_cons, List.nodup_cons]
      refine ⟨?_, ih h.2⟩
      intro hmem
      rcases (mem_keys_insertA t k n k').mp hmem with rfl | hmem
      · exact hk rfl
      · exact h.1 hmem

/-- Folding insert steps keeps the keys duplicate-free. -/
theorem foldl_insertA_nodup {γ : Type} (step : List (Var × Nat) → γ → List (Var × Nat))
    (hstep : ∀ acc x, (acc.map Prod.fst).Nodup → ((step acc x).map Prod.fst).Nodup) :
    ∀ (l : List γ) (acc : List (Var × Nat)),
      (acc.map Prod.fst).Nodup → ((l.foldl step acc).map Prod.fst).Nodup := by
  intro l
  induction l with
  | nil => intro acc h; exact h
  | cons x l' ih =>
    intro acc h
    exact ih (step acc x) (hstep acc x h)

/-- Membership and lookup agree on duplicate-free association lists. -/
theorem mem_lookupA {α β : Type} [DecidableEq α] (l : List (α × β)) (k : α) (n : β)
    (h : (l.map Prod.fst).Nodup) : (k, n) ∈ l ↔ lookupA l k = some n := by
  induction l with
  | nil => simp [lookupA]
  | cons p t ih =>
    obtain ⟨k', v'⟩ := p
    simp only [List.map_cons, List.nodup_cons] at h
    by_cases hk : k' = k
    · subst hk
      simp only [lookupA, if_pos rfl, ite_true, List.mem_cons, Option.some.injEq]
      constructor
      · rintro (heq | hmem)
        · exact (Prod.mk.injEq _ _ _ _ ▸ heq).symm.1 ▸ (congrArg Prod.snd heq).symm
        · exact absurd (List.mem_map_of_mem Prod.fst hmem) h.1
      · rintro rfl
        exact Or.inl rfl
    · simp only [lookupA, hk, if_false, ite_false, List.mem_cons]
      rw [← ih h.2]
      constructor
      · rintro (heq | hmem)
        · exact absurd (congrArg Prod.fst heq).symm hk
        · exact hmem
      · exact Or.inr

/-- Membership in `find_variable_positions`. -/
theorem mem_fvp (x : Term) :
    ∀ (l : List Var) (acc : List Term),
      x ∈ l.foldl (fun perm_vars u =>
          if perm_vars.contains (Term.Var u) then perm_vars
          else perm_vars ++ [Term.Var u]) acc ↔
        x ∈ acc ∨ ∃ u ∈ l, x = Term.Var u := by
  intro l
  induction l with
  | nil => intro acc; simp
  | cons u l' ih =>
    intro acc
    simp only [List.foldl_cons]
    rw [ih]
    by_cases hc : acc.contains (Term.Var u) = true
    · rw [if_pos hc]
      constructor
      · rintro (h | ⟨u', hu', he⟩)
        · exact Or.inl h
        · exact Or.inr ⟨u', List.mem_cons_of_mem _ hu', he⟩
      · rintro (h | ⟨u', hu', he⟩)
        · exact Or.inl h
        · rcases List.mem_cons.mp hu' with rfl | hu'
          · subst he
            exact Or.inl (by simpa using hc)
          · exact Or.inr ⟨u', hu', he⟩
    · rw [if_neg hc]
      constructor
      · rintro (h | ⟨u', hu', he⟩)
        · rcases List.mem_append.mp h with h | h
          · exact Or.inl h
          · simp only [List.mem_singleton] at h
            exact Or.inr ⟨u, List.mem_cons_self u l', h⟩
        · exact Or.inr ⟨u', List.mem_cons_of_mem _ hu', he⟩
      · rintro (h | ⟨u', hu', he⟩)
        · exact Or.inl (List.mem_append.mpr (Or.inl h))
        · rcases List.mem_cons.mp hu' with rfl | hu'
          · exact Or.inl (List.mem_append.mpr (Or.inr (by simp [he])))
          · exact Or.inr ⟨u', hu', he⟩

/-- Membership in the final ordered filter of `collect_permanent_variables`. -/
theorem mem_tempfold (vars : List Term) (x : Term) :
    ∀ (l : List Term) (acc : List Term),
      x ∈ l.foldl (fun temp t =>
          if vars.contains t && !temp.contains t then temp ++ [t] else temp) acc ↔
        x ∈ acc ∨ (x ∈ l ∧ vars.contains x = true) := by
  intro l
  induction l with
  | nil => intro acc; simp
  | cons t l' ih =>
    intro acc
    simp only [List.foldl_cons]
    rw [ih]
    by_cases hcond : (vars.contains t && !acc.contains t) = true
    · rw [if_pos hcond]
      have hv : vars.contains t = true := by
        have h' := hcond
        simp only [Bool.and_eq_true] at h'
        exact h'.1
      constructor
      · rintro (h | ⟨hl, hx⟩)
        · rcases List.mem_append.mp h with h | h
          · exact Or.inl h
          · simp only [List.mem_singleton] at h
            subst h
            exact Or.inr ⟨List.mem_cons_self _ _, hv⟩
        · exact Or.inr ⟨List.mem_cons_of_mem _ hl, hx⟩
      · rintro (h | ⟨hl, hx⟩)
        · exact Or.inl (List.mem_append.mpr (Or.inl h))
        · rcases List.mem_cons.mp hl with rfl | hl
          · exact Or.inl (List.mem_append.mpr (Or.inr (by simp)))
          · exact Or.inr ⟨hl, hx⟩
    · rw [if_neg hcond]
      constructor
      · rintro (h | ⟨hl, hx⟩)
        · exact Or.inl h
        · exact Or.inr ⟨List.mem_cons_of_mem _ hl, hx⟩
      · rintro (h | ⟨hl, hx⟩)
        · exact Or.inl h
        · rcases List.mem_cons.mp hl with rfl | hl
          · left
            have hacc : acc.contains x = true := by
              by_contra hacc
              apply hcond
              simp only [Bool.and_eq_true, hx, Bool.not_eq_true']
              exact ⟨trivial, by simpa using hacc⟩
            simpa using hacc
          · exact Or.inr ⟨hl, hx⟩

/-- Pulling the accumulator out of the variable-collection fold. -/
theorem foldl_append_vars :
    ∀ (l : List Compound) (acc : List Var),
      l.foldl (fun acc b => acc ++ find_variables b.toTerm) acc =
        acc ++ l.foldl (fun acc b => acc ++ find_variables b.toTerm) [] := by
  intro l
  induction l with
  | nil => intro acc; simp
  | cons b l' ih =>
    intro acc
    simp only [List.foldl_cons, List.nil_append]
    rw [ih (acc ++ find_variables b.toTerm), ih (find_variables b.toTerm)]
    simp [List.append_assoc]

/-- C2: amended occurrence-counting characterisation of permanent
variables: a variable is a key of `collect_permanent_variables` iff its
weight — one if it occurs anywhere in the first chunk (head together with
the first body goal), plus one per occurrence in the later body goals —
exceeds one. -/
theorem claim_C2_amended (head b0 : Compound) (rest : List Compound) (v : Var)
    (tm : TermMap) (hc : collect_permanent_variables ⟨head, b0 :: rest⟩ = some tm) :
    Term.Var v ∈ tm.map Prod.fst ↔
      1 < (if v ∈ find_variables head.toTerm ++ find_variables b0.toTerm then 1 else 0) +
        (rest.foldl (fun acc b => acc ++ find_variables b.toTerm) []).count v := by
  dsimp only [collect_permanent_variables] at hc
  injection hc with hc
  subst hc
  rw [List.map_map]
  have hkeys : (Prod.fst ∘ fun p : Nat × Term => (p.2, Register.Y (p.1 + 1))) = Prod.snd := rfl
  rw [hkeys, List.enum_map_snd, mem_tempfold]
  simp only [List.not_mem_nil, false_or]
  have hcm : ∀ (l : List Term) (x : Term), l.contains x = true ↔ x ∈ l := by
    intro l x
    simp
  have hnd1 : ∀ (l : List Var) (acc : List (Var × Nat)), (acc.map Prod.fst).Nodup →
      ((l.foldl (fun c u => insertA c u 1) acc).map Prod.fst).Nodup :=
    foldl_insertA_nodup _ (fun acc u h => insertA_keys_nodup acc u 1 h)
  have hnd : ((((rest.foldl (fun acc b => acc ++ find_variables b.toTerm) []).foldl
      (fun counts u =>
        match lookupA counts u with
        | some c => insertA counts u (c + 1)
        | none => insertA counts u 1)
      ((find_variables head.toTerm ++ find_variables b0.toTerm).foldl
        (fun c u => insertA c u 1) []))).map Prod.fst).Nodup := by
    apply foldl_insertA_nodup
    · intro acc u h
      cases hl : lookupA acc u with
      | none => exact insertA_keys_nodup acc u 1 h
      | some c => exact insertA_keys_nodup acc u (c + 1) h
    · exact hnd1 _ [] (by simp)
  have hW : (lookupA ((rest.foldl (fun acc b => acc ++ find_variables b.toTerm) []).foldl
      (fun counts u =>
        match lookupA counts u with
        | some c => insertA counts u (c + 1)
        | none => insertA counts u 1)
      ((find_variables head.toTerm ++ find_variables b0.toTerm).foldl
        (fun c u => insertA c u 1) [])) v).getD 0 =
      (if v ∈ find_variables head.toTerm ++ find_variables b0.toTerm then 1 else 0) +
        (rest.foldl (fun acc b => acc ++ find_variables b.toTerm) []).count v := by
    rw [lookupA_phase2, lookupA_phase1]
    by_cases hm : v ∈ find_variables head.toTerm ++ find_variables b0.toTerm <;>
      simp [hm, lookupA]
  rw [hcm]
  simp only [List.mem_map, List.mem_filter, decide_eq_true_eq, Term.Var.injEq]
  constructor
  · rintro ⟨_, ⟨k, c⟩, ⟨hmem2, hlt⟩, hk⟩
    subst hk
    have hl := (mem_lookupA _ k c hnd).mp hmem2
    rw [← hW, hl]
    simpa using hlt
  · intro h
    have hx : v ∈ rest.foldl (fun acc b => acc ++ find_variables b.toTerm) [] ∨
        v ∈ find_variables head.toTerm ++ find_variables b0.toTerm := by
      by_cases hm : v ∈ find_variables head.toTerm ++ find_variables b0.toTerm
      · exact Or.inr hm
      · left
        rw [if_neg hm, Nat.zero_add] at h
        exact List.count_pos_iff.mp (by omega)
    refine ⟨?_, ?_⟩
    · have hgoal : v ∈ find_variables head.toTerm ++
          List.foldl (fun acc b => acc ++ find_variables b.toTerm) [] (b0 :: rest) := by
        simp only [List.foldl_cons, List.nil_append,
          foldl_append_vars rest (find_variables b0.toTerm), List.mem_append] at hx ⊢
        tauto
      exact (mem_fvp (Term.Var v) _ []).mpr (Or.inr ⟨v, hgoal, rfl⟩)
    · cases hl : lookupA ((rest.foldl (fun acc b => acc ++ find_variables b.toTerm) []).foldl
          (fun counts u =>
            match lookupA counts u with
            | some c => insertA counts u (c + 1)
            | none => insertA counts u 1)
          ((find_variables head.toTerm ++ find_variables b0.toTerm).foldl
            (fun c u => insertA c u 1) [])) v with
      | none =>
        rw [← hW, hl] at h
        simp at h
      | some c =>
        refine ⟨(v, c), ⟨(mem_lookupA _ v c hnd).mpr hl, ?_⟩, rfl⟩
        rw [← hW, hl] at h
        simpa using h

/-- C2, witness: on the rule `p(W) :- q(W), r(X, X)` the amended
characterisation makes `X` permanent — its first-chunk weight is 0 but it
occurs twice in the later goal `r(X, X)`. -/
theorem claim_C2_witness :
    collect_permanent_variables ruleXX = some [(Term.Var "X", Register.Y 1)] ∧
      (Term.Var "X" ∈ ([(Term.Var "X", Register.Y 1)] : TermMap).map Prod.fst ↔
        1 < (if "X" ∈ find_variables (Compound.toTerm
                { name := "p", arity := 1, args := [Term.Var "W"] }) ++
              find_variables (Compound.toTerm
                { name := "q", arity := 1, args := [Term.Var "W"] }) then 1 else 0) +
          (([{ name := "r", arity := 2, args := [Term.Var "X", Term.Var "X"] }] :
              List Compound).foldl (fun acc b => acc ++ find_variables b.toTerm) []).count "X") :=
  ⟨by decide,
    claim_C2_amended { name := "p", arity := 1, args := [Term.Var "W"] }
      { name := "q", arity := 1, args := [Term.Var "W"] }
      [{ name := "r", arity := 2, args := [Term.Var "X", Term.Var "X"] }]
      "X" [(Term.Var "X", Register.Y 1)] (by decide)⟩

/-! ## C8: invariant-preservation toolkit -/

/-- A successful bounds-checked update keeps the length. -/
theorem listSet?_length {α : Type} {l l' : List α} {n : Nat} {v : α}
    (h : listSet? l n v = some l') : l'.length = l.length := by
  unfold listSet? at h
  split at h
  · cases h
    simp
  · cases h

/-- A successful bounds-checked update stores the value. -/
theorem listSet?_get_eq {α : Type} {l l' : List α} {n : Nat} {v : α}
    (h : listSet? l n v = some l') : l'.get? n = some v := by
  unfold listSet? at h
  split at h
  case isTrue hlt =>
    cases h
    simp [List.get?_eq_getElem?, List.getElem?_set_self, hlt]
  case isFalse => cases h

/-- A successful bounds-checked update leaves other positions alone. -/
theorem listSet?_get_ne {α : Type} {l l' : List α} {n : Nat} {v : α}
    (h : listSet? l n v = some l') {w : Nat} (hw : w ≠ n) : l'.get? w = l.get? w := by
  unfold listSet? at h
  split at h
  · cases h
    simp only [List.get?_eq_getElem?]
    rw [List.getElem?_set_ne (fun hh => hw hh.symm)]
  · cases h

/-- Members after a bounds-checked update. -/
theorem listSet?_mem {α : Type} {l l' : List α} {n : Nat} {v : α}
    (h : listSet? l n v = some l') : ∀ a ∈ l', a ∈ l ∨ a = v := by
  unfold listSet? at h
  split at h
  · cases h
    intro a ha
    exact List.mem_or_eq_of_mem_set ha
  · cases h

/-- Members of a `Vec::resize`. -/
theorem mem_resize {α : Type} {l : List α} {n : Nat} {v : α} :
    ∀ a ∈ resize l n v, a ∈ l ∨ a = v := by
  intro a ha
  rcases List.mem_append.mp ha with h | h
  · exact Or.inl (List.mem_of_mem_take h)
  · exact Or.inr (List.eq_of_mem_replicate h)

/-- A well-formed `Ref` points inside the heap at a non-`Func` cell. -/
theorem cellOk_ref_nonfunc {heap : List Cell} {v : Nat}
    (h : cellOk heap (Cell.Ref v) = true) :
    (heap.get? v).elim false Cell.is_func = false ∧ v < heap.length := by
  simp only [cellOk, Bool.and_eq_true, decide_eq_true_eq, Bool.not_eq_true'] at h
  exact ⟨h.2, h.1⟩

/-- Cell well-formedness survives overwriting a non-`Func` heap position
with a non-`Func` value. -/
theorem cellOk_set {heap heap' : List Cell} {v : Nat} {d : Cell}
    (hs : listSet? heap v d = some heap')
    (hold : (heap.get? v).elim false Cell.is_func = false)
    (hnew : d.is_func = false) :
    ∀ c, cellOk heap c = true → cellOk heap' c = true := by
  intro c hc
  cases c with
  | Func f => rfl
  | Str a =>
    by_cases ha : a = v
    · subst ha
      simp only [cellOk] at hc
      rw [hc] at hold
      cases hold
    · simp only [cellOk] at hc ⊢
      rw [listSet?_get_ne hs ha]
      exact hc
  | Ref w =>
    obtain ⟨hnf, hlt⟩ := cellOk_ref_nonfunc hc
    simp only [cellOk, Bool.and_eq_true, decide_eq_true_eq, Bool.not_eq_true']
    rw [listSet?_length hs]
    refine ⟨hlt, ?_⟩
    by_cases hw : w = v
    · subst hw
      rw [listSet?_get_eq hs]
      simpa using hnew
    · rw [listSet?_get_ne hs hw]
      exact hnf

/-- Cell well-formedness survives extending the heap on the right. -/
theorem cellOk_append {heap : List Cell} (l2 : List Cell) :
    ∀ c, cellOk heap c = true → cellOk (heap ++ l2) c = true := by
  intro c hc
  cases c with
  | Func f => rfl
  | Str a =>
    simp only [cellOk] at hc ⊢
    cases hg : heap.get? a with
    | none => rw [hg] at hc; cases hc
    | some cc =>
      rw [hg] at hc
      have hlt : a < heap.length := get?_some_lt hg
      rw [List.get?_eq_getElem?, List.getElem?_append_left hlt, ← List.get?_eq_getElem?, hg]
      exact hc
  | Ref w =>
    obtain ⟨hnf, hlt⟩ := cellOk_ref_nonfunc hc
    simp only [cellOk, Bool.and_eq_true, decide_eq_true_eq, Bool.not_eq_true']
    refine ⟨by simp [hlt]; omega, ?_⟩
    rw [List.get?_eq_getElem?, List.getElem?_append_left hlt, ← List.get?_eq_getElem?]
    exact hnf

/-- Overwriting a non-`Func` heap position with a well-formed non-`Func`
cell keeps every heap cell well-formed. -/
theorem set_heap_preserves {heap hp : List Cell} {v : Nat} {d : Cell}
    (hs : listSet? heap v d = some hp)
    (hold : (heap.get? v).elim false Cell.is_func = false)
    (hnew : d.is_func = false)
    (hd : cellOk heap d = true)
    (hall : ∀ c ∈ heap, cellOk heap c = true) :
    hp.length = heap.length ∧
      (∀ c, cellOk heap c = true → cellOk hp c = true) ∧
      (∀ c ∈ hp, cellOk hp c = true) := by
  refine ⟨listSet?_length hs, cellOk_set hs hold hnew, ?_⟩
  intro c hc
  rcases listSet?_mem hs c hc with h | rfl
  · exact cellOk_set hs hold hnew c (hall c h)
  · exact cellOk_set hs hold hnew c hd

/-- `bind` called with at least one `Ref` side (as `unify` and
`get_structure` do) keeps every heap cell well-formed, preserves cell
well-formedness of untouched cells, and changes nothing but the heap. -/
theorem bind_preserves {m m' : Machine} {a1 a2 : Store}
    (hb : bind a1 a2 m = some m')
    (hall : ∀ c ∈ m.heap, cellOk m.heap c = true)
    (h1 : ∀ c, get_store_cell m a1 = some c → cellOk m.heap c = true)
    (h2 : ∀ c, get_store_cell m a2 = some c → cellOk m.heap c = true)
    (href : ∀ c1 c2, get_store_cell m a1 = some c1 → get_store_cell m a2 = some c2 →
      (c1.is_ref || c2.is_ref) = true) :
    m'.heap.length = m.heap.length ∧
      (∀ c, cellOk m.heap c = true → cellOk m'.heap c = true) ∧
      (∀ c ∈ m'.heap, cellOk m'.heap c = true) ∧
      m'.registers = m.registers ∧ m'.stack = m.stack := by
  have fin : ∀ (v : Nat) (d : Cell),
      (listSet? m.heap v d).map (fun hp => { m with heap := hp }) = some m' →
      (m.heap.get? v).elim false Cell.is_func = false →
      d.is_func = false → cellOk m.heap d = true →
      m'.heap.length = m.heap.length ∧
        (∀ c, cellOk m.heap c = true → cellOk m'.heap c = true) ∧
        (∀ c ∈ m'.heap, cellOk m'.heap c = true) ∧
        m'.registers = m.registers ∧ m'.stack = m.stack := by
    intro v d hb' hold hnew hd
    cases hs : listSet? m.heap v d with
    | none =>
      rw [hs] at hb'
      cases hb'
    | some hp =>
      rw [hs, Option.map_some'] at hb'
      injection hb' with hb'
      subst hb'
      obtain ⟨hlen, hmono, hall'⟩ := set_heap_preserves hs hold hnew hd hall
      exact ⟨hlen, hmono, hall', rfl, rfl⟩
  unfold bind at hb
  cases hc1 : get_store_cell m a1 with
  | none =>
    rw [hc1] at hb
    cases hb
  | some c1 =>
    cases hc2 : get_store_cell m a2 with
    | none =>
      rw [hc1, hc2] at hb
      cases hb
    | some c2 =>
      rw [hc1, hc2] at hb
      have hok1 := h1 c1 hc1
      have hok2 := h2 c2 hc2
      have hr := href c1 c2 hc1 hc2
      cases c1 with
      | Func f =>
        simp only [Cell.address] at hb
        cases hb
      | Ref v1 =>
        cases c2 with
        | Func f =>
          simp only [Cell.address] at hb
          cases hb
        | Ref v2 =>
          simp only [Cell.address, Cell.is_ref, Bool.true_and, Bool.not_true,
            Bool.false_or] at hb
          by_cases hv : v2 < v1
          · rw [if_pos (by simpa using hv)] at hb
            exact fin v1 (Cell.Ref v2) hb (cellOk_ref_nonfunc hok1).1 rfl hok2
          · rw [if_neg (by simpa using hv)] at hb
            exact fin v2 (Cell.Ref v1) hb (cellOk_ref_nonfunc hok2).1 rfl hok1
        | Str v2 =>
          simp only [Cell.address, Cell.is_ref, Bool.true_and, Bool.not_false,
            Bool.true_or, if_true, ite_true] at hb
          exact fin v1 (Cell.Str v2) hb (cellOk_ref_nonfunc hok1).1 rfl hok2
      | Str v1 =>
        cases c2 with
        | Func f =>
          simp only [Cell.address] at hb
          cases hb
        | Ref v2 =>
          simp only [Cell.address, Cell.is_ref, Bool.false_and, if_false,
            ite_false] at hb
          exact fin v2 (Cell.Str v1) hb (cellOk_ref_nonfunc hok2).1 rfl hok1
        | Str v2 =>
          simp only [Cell.is_ref, Bool.or_self] at hr
          cases hr

/-- Any cell read from any store of a machine with well-formed heap,
registers and stack is well-formed. -/
theorem get_store_cell_ok {m : Machine} (hm : Inv m) :
    ∀ (a : Store) (c : Cell), get_store_cell m a = some c → cellOk m.heap c = true := by
  obtain ⟨_, hheap, hx, hst⟩ := hm
  intro a c hc
  cases a with
  | HeapAddr addr => exact hheap c (List.get?_mem hc)
  | Register r =>
    cases r with
    | X xi =>
      cases xi with
      | zero => cases hc
      | succ i =>
        simp only [get_store_cell, get_register, get_x] at hc
        cases hg : m.registers.x.get? i with
        | none =>
          rw [hg] at hc
          cases hc
        | some oc =>
          rw [hg] at hc
          have hoc : oc = some c := by
            cases oc <;> simp_all [Option.join]
          subst hoc
          simpa [xcellOk] using hx (some c) (List.get?_mem hg)
    | Y yi =>
      simp only [get_store_cell, get_register, get_y] at hc
      cases hg : m.stack.get? (m.registers.e + 3 + yi) with
      | none =>
        rw [hg] at hc
        cases hc
      | some fr =>
        rw [hg] at hc
        cases fr with
        | none => cases hc
        | some fr' =>
          cases fr' with
          | Code n => cases hc
          | Cell c' =>
            have hcc : c' = c := by simpa using hc
            subst hcc
            simpa [frameOk] using hst (some (Frame.Cell c')) (List.get?_mem hg)

/-- Register-cell well-formedness transfers along heap-cell
well-formedness. -/
theorem xok_mono {heap heap' : List Cell} {x : List (Option Cell)}
    (hmono : ∀ c, cellOk heap c = true → cellOk heap' c = true)
    (h : ∀ oc ∈ x, xcellOk heap oc = true) : ∀ oc ∈ x, xcellOk heap' oc = true := by
  intro oc hoc
  cases oc with
  | none => rfl
  | some c => simpa [xcellOk] using hmono c (by simpa [xcellOk] using h (some c) hoc)

/-- Stack-frame well-formedness transfers along heap-cell
well-formedness. -/
theorem frameok_mono {heap heap' : List Cell} {st : List (Option Frame)}
    (hmono : ∀ c, cellOk heap c = true → cellOk heap' c = true)
    (h : ∀ fr ∈ st, frameOk heap fr = true) : ∀ fr ∈ st, frameOk heap' fr = true := by
  intro fr hfr
  cases fr with
  | none => rfl
  | some fr' =>
    cases fr' with
    | Code n => rfl
    | Cell c => simpa [frameOk] using hmono c (by simpa [frameOk] using h (some (Frame.Cell c)) hfr)

/-- Members of the on-demand register-file growth of `insert_x`. -/
theorem mem_grow {α : Type} {l : List (Option α)} {n : Nat} :
    ∀ a ∈ (if n > l.length then resize l n none else l), a ∈ l ∨ a = none := by
  split
  · exact fun a ha => mem_resize a ha
  · exact fun a ha => Or.inl ha

/-- `insert_register` with a well-formed cell keeps every register cell and
stack frame well-formed, and changes neither the heap nor the other
machine components. -/
theorem insert_register_pres {m m' : Machine} {r : Register} {c : Cell}
    (h : insert_register r c m = some m')
    (hc : cellOk m.heap c = true)
    (hx : ∀ oc ∈ m.registers.x, xcellOk m.heap oc = true)
    (hst : ∀ fr ∈ m.stack, frameOk m.heap fr = true) :
    m'.heap = m.heap ∧ m'.registers.h = m.registers.h ∧
      (∀ oc ∈ m'.registers.x, xcellOk m'.heap oc = true) ∧
      (∀ fr ∈ m'.stack, frameOk m'.heap fr = true) := by
  cases r with
  | X xi =>
    cases xi with
    | zero => cases h
    | succ i =>
      simp only [insert_register, insert_x] at h
      cases hs : listSet? (if i + 1 > m.registers.x.length
          then resize m.registers.x (i + 1) none else m.registers.x) i (some c) with
      | none =>
        rw [hs] at h
        cases h
      | some x' =>
        rw [hs, Option.map_some'] at h
        injection h with h
        subst h
        refine ⟨rfl, rfl, ?_, hst⟩
        intro oc hoc
        rcases listSet?_mem hs oc hoc with hmem | rfl
        · rcases mem_grow oc hmem with hmem | rfl
          · exact hx oc hmem
          · rfl
        · simpa [xcellOk] using hc
  | Y yi =>
    simp only [insert_register, insert_y] at h
    cases hs : listSet? m.stack (m.registers.e + 3 + yi) (some (Frame.Cell c)) with
    | none =>
      rw [hs] at h
      cases h
    | some st' =>
      rw [hs, Option.map_some'] at h
      injection h with h
      subst h
      refine ⟨rfl, rfl, hx, ?_⟩
      intro fr hfr
      rcases listSet?_mem hs fr hfr with hmem | rfl
      · exact hst fr hmem
      · simpa [frameOk] using hc

/-- The PDL drain loop of `unify` preserves the machine invariant: every
write it performs goes through `bind` with at least one `Ref` side. -/
theorem drain_inv (dfuel : Nat) : ∀ (fuel : Nat) (m m' : Machine),
    Inv m → drain dfuel fuel m = some m' → Inv m' := by
  intro fuel
  induction fuel with
  | zero =>
    intro m m' hm h
    cases h
  | succ fuel ih =>
    intro m m' hm h
    simp only [drain] at h
    by_cases hstop : (m.pdl.isEmpty || m.fail) = true
    · rw [if_pos hstop] at h
      injection h with h
      subst h
      exact hm
    · rw [if_neg hstop] at h
      cases hp : m.pdl with
      | nil =>
        rw [hp] at h
        injection h with h
        subst h
        exact hm
      | cons a1 t =>
        cases t with
        | nil =>
          rw [hp] at h
          cases h
        | cons a2 rest =>
          rw [hp] at h
          try dsimp only at h
          have hminv : Inv { m with pdl := rest } := hm
          cases hd1 : derefF dfuel { m with pdl := rest } a1 with
          | none =>
            rw [hd1] at h
            cases h
          | some d1 =>
            cases hd2 : derefF dfuel { m with pdl := rest } a2 with
            | none =>
              rw [hd1, hd2] at h
              cases h
            | some d2 =>
              rw [hd1, hd2] at h
              try dsimp only at h
              by_cases hdd : d1 = d2
              · rw [if_pos hdd] at h
                exact ih _ _ hminv h
              · rw [if_neg hdd] at h
                cases hg1 : get_store_cell { m with pdl := rest } d1 with
                | none =>
                  rw [hg1] at h
                  cases h
                | some c1 =>
                  cases hg2 : get_store_cell { m with pdl := rest } d2 with
                  | none =>
                    rw [hg1, hg2] at h
                    cases h
                  | some c2 =>
                    rw [hg1, hg2] at h
                    try dsimp only at h
                    by_cases hr : (c1.is_ref || c2.is_ref) = true
                    · rw [if_pos hr] at h
                      cases hb : bind d1 d2 { m with pdl := rest } with
                      | none =>
                        rw [hb] at h
                        cases h
                      | some m2 =>
                        rw [hb] at h
                        obtain ⟨hlen, hmono, hall', hreg, hstk⟩ :=
                          bind_preserves hb hminv.2.1
                            (fun c hc => get_store_cell_ok hminv d1 c hc)
                            (fun c hc => get_store_cell_ok hminv d2 c hc)
                            (fun c1' c2' hc1' hc2' => by
                              rw [hg1] at hc1'
                              rw [hg2] at hc2'
                              injection hc1' with e1
                              injection hc2' with e2
                              subst e1
                              subst e2
                              exact hr)
                        have hinv2 : Inv m2 := by
                          refine ⟨?_, hall', ?_, ?_⟩
                          · rw [hreg, hlen]
                            exact hminv.1
                          · rw [hreg]
                            exact xok_mono hmono hminv.2.2.1
                          · rw [hstk]
                            exact frameok_mono hmono hminv.2.2.2
                        exact ih _ _ hinv2 h
                    · rw [if_neg hr] at h
                      cases ha1 : c1.address with
                      | none =>
                        rw [ha1] at h
                        cases h
                      | some v1 =>
                        cases ha2 : c2.address with
                        | none =>
                          rw [ha1, ha2] at h
                          cases h
                        | some v2 =>
                          rw [ha1, ha2] at h
                          try dsimp only at h
                          cases hf1 : get_functor { m with pdl := rest } c1 with
                          | none =>
                            rw [hf1] at h
                            cases h
                          | some f1 =>
                            cases hf2 : get_functor { m with pdl := rest } c2 with
                            | none =>
                              rw [hf1, hf2] at h
                              cases h
                            | some f2 =>
                              rw [hf1, hf2] at h
                              try dsimp only at h
                              by_cases hff : f1 = f2
                              · rw [if_pos hff] at h
                                refine ih _ m' ?_ h
                                exact hminv
                              · rw [if_neg hff] at h
                                refine ih _ m' ?_ h
                                exact hminv

/-- `unify` preserves the machine invariant. -/
theorem unify_inv {fuel : Nat} {a1 a2 : Store} {m m' : Machine}
    (h : unify fuel a1 a2 m = some m') (hm : Inv m) : Inv m' := by
  refine drain_inv fuel fuel _ m' ?_ h
  exact hm

/-- Facts about pushing a fresh unbound `Ref` at the top of the heap. -/
theorem push_ref_inv_parts {m : Machine} (hm : Inv m) :
    cellOk (m.heap ++ [Cell.Ref m.registers.h]) (Cell.Ref m.registers.h) = true ∧
      (∀ c ∈ m.heap ++ [Cell.Ref m.registers.h],
        cellOk (m.heap ++ [Cell.Ref m.registers.h]) c = true) ∧
      (∀ c, cellOk m.heap c = true →
        cellOk (m.heap ++ [Cell.Ref m.registers.h]) c = true) := by
  obtain ⟨hh, hheap, _, _⟩ := hm
  have hget : (m.heap ++ [Cell.Ref m.registers.h]).get? m.registers.h
      = some (Cell.Ref m.registers.h) := by
    rw [List.get?_eq_getElem?, hh]
    exact List.getElem?_concat_length _ _
  have hok : cellOk (m.heap ++ [Cell.Ref m.registers.h]) (Cell.Ref m.registers.h) = true := by
    simp only [cellOk, Bool.and_eq_true, decide_eq_true_eq, Bool.not_eq_true']
    refine ⟨by simp [hh], ?_⟩
    rw [hget]
    rfl
  refine ⟨hok, ?_, cellOk_append _⟩
  intro c hc
  rcases List.mem_append.mp hc with hcm | hcm
  · exact cellOk_append _ c (hheap c hcm)
  · obtain rfl := List.mem_singleton.mp hcm
    exact hok

/-- `put_value` preserves the invariant. -/
theorem put_value_inv {xn ai : Register} {m m' : Machine}
    (h : put_value xn ai m = some m') (hm : Inv m) : Inv m' := by
  unfold put_value at h
  cases hg : get_register m xn with
  | none =>
    rw [hg] at h
    cases h
  | some c =>
    rw [hg, Option.some_bind] at h
    obtain ⟨hh2, hhr2, hx2, hst2⟩ :=
      insert_register_pres h (get_store_cell_ok hm (Store.Register xn) c hg)
        hm.2.2.1 hm.2.2.2
    refine ⟨?_, ?_, hx2, hst2⟩
    · rw [hhr2, hh2]
      exact hm.1
    · rw [hh2]
      exact hm.2.1

/-- `get_variable` preserves the invariant. -/
theorem get_variable_inv {xn ai : Register} {m m' : Machine}
    (h : get_variable xn ai m = some m') (hm : Inv m) : Inv m' := by
  unfold get_variable at h
  cases hg : get_register m ai with
  | none =>
    rw [hg] at h
    cases h
  | some c =>
    rw [hg, Option.some_bind] at h
    obtain ⟨hh2, hhr2, hx2, hst2⟩ :=
      insert_register_pres h (get_store_cell_ok hm (Store.Register ai) c hg)
        hm.2.2.1 hm.2.2.2
    refine ⟨?_, ?_, hx2, hst2⟩
    · rw [hhr2, hh2]
      exact hm.1
    · rw [hh2]
      exact hm.2.1

/-- `set_value` preserves the invariant. -/
theorem set_value_inv {xi : Register} {m m' : Machine}
    (h : set_value xi m = some m') (hm : Inv m) : Inv m' := by
  obtain ⟨hh, hheap, hx, hst⟩ := hm
  unfold set_value at h
  cases hg : get_register m xi with
  | none =>
    rw [hg] at h
    cases h
  | some c =>
    rw [hg, Option.map_some'] at h
    injection h with h
    subst h
    have hok := get_store_cell_ok ⟨hh, hheap, hx, hst⟩ (Store.Register xi) c hg
    refine ⟨?_, ?_, ?_, ?_⟩
    · show m.registers.h + 1 = (m.heap ++ [c]).length
      simp [hh]
    · show ∀ d ∈ m.heap ++ [c], cellOk (m.heap ++ [c]) d = true
      intro d hd
      rcases List.mem_append.mp hd with hdm | hdm
      · exact cellOk_append _ d (hheap d hdm)
      · obtain rfl := List.mem_singleton.mp hdm
        exact cellOk_append _ d hok
    · show ∀ oc ∈ m.registers.x, xcellOk (m.heap ++ [c]) oc = true
      exact xok_mono (cellOk_append _) hx
    · show ∀ fr ∈ m.stack, frameOk (m.heap ++ [c]) fr = true
      exact frameok_mono (cellOk_append _) hst

/-- `set_variable` preserves the invariant. -/
theorem set_variable_inv {xi : Register} {m m' : Machine}
    (h : set_variable xi m = some m') (hm : Inv m) : Inv m' := by
  obtain ⟨hok, hall, hmono⟩ := push_ref_inv_parts hm
  unfold set_variable at h
  try dsimp only at h
  cases hins : insert_register xi (Cell.Ref m.registers.h)
      (push_heap (Cell.Ref m.registers.h) m) with
  | none =>
    rw [hins] at h
    cases h
  | some m2 =>
    rw [hins, Option.map_some'] at h
    injection h with h
    subst h
    obtain ⟨hh2, hhr2, hx2, hst2⟩ :=
      insert_register_pres hins hok (xok_mono hmono hm.2.2.1) (frameok_mono hmono hm.2.2.2)
    refine ⟨?_, ?_, ?_, ?_⟩
    · show m2.registers.h + 1 = m2.heap.length
      rw [hhr2, hh2]
      show m.registers.h + 1 = (m.heap ++ [Cell.Ref m.registers.h]).length
      simp [hm.1]
    · show ∀ d ∈ m2.heap, cellOk m2.heap d = true
      rw [hh2]
      exact hall
    · show ∀ oc ∈ m2.registers.x, xcellOk m2.heap oc = true
      exact hx2
    · show ∀ fr ∈ m2.stack, frameOk m2.heap fr = true
      exact hst2

/-- `put_variable` preserves the invariant. -/
theorem put_variable_inv {xn ai : Register} {m m' : Machine}
    (h : put_variable xn ai m = some m') (hm : Inv m) : Inv m' := by
  obtain ⟨hok, hall, hmono⟩ := push_ref_inv_parts hm
  unfold put_variable at h
  try dsimp only at h
  cases hins1 : insert_register xn (Cell.Ref m.registers.h)
      (push_heap (Cell.Ref m.registers.h) m) with
  | none =>
    rw [hins1] at h
    cases h
  | some m2 =>
    rw [hins1, Option.some_bind] at h
    obtain ⟨hh2, hhr2, hx2, hst2⟩ :=
      insert_register_pres hins1 hok (xok_mono hmono hm.2.2.1) (frameok_mono hmono hm.2.2.2)
    cases hins2 : insert_register ai (Cell.Ref m.registers.h) m2 with
    | none =>
      rw [hins2] at h
      cases h
    | some m3 =>
      rw [hins2, Option.map_some'] at h
      injection h with h
      subst h
      obtain ⟨hh3, hhr3, hx3, hst3⟩ :=
        insert_register_pres hins2 (by rw [hh2]; exact hok) hx2 hst2
      refine ⟨?_, ?_, ?_, ?_⟩
      · show m3.registers.h + 1 = m3.heap.length
        rw [hhr3, hh3, hhr2, hh2]
        show m.registers.h + 1 = (m.heap ++ [Cell.Ref m.registers.h]).length
        simp [hm.1]
      · show ∀ d ∈ m3.heap, cellOk m3.heap d = true
        rw [hh3, hh2]
        exact hall
      · show ∀ oc ∈ m3.registers.x, xcellOk m3.heap oc = true
        exact hx3
      · show ∀ fr ∈ m3.stack, frameOk m3.heap fr = true
        exact hst3

/-- `get_value` preserves the invariant. -/
theorem get_value_inv {fuel : Nat} {xn ai : Register} {m m' : Machine}
    (h : get_value fuel xn ai m = some m') (hm : Inv m) : Inv m' :=
  unify_inv h hm

/-- `call` preserves the invariant. -/
theorem call_inv {f : Functor} {m m' : Machine}
    (h : call f m = some m') (hm : Inv m) : Inv m' := by
  unfold call at h
  cases hl : lookupA m.code.code_address f with
  | none =>
    rw [hl] at h
    cases h
  | some a =>
    rw [hl, Option.map_some'] at h
    injection h with h
    subst h
    exact hm

/-- `proceed` preserves the invariant. -/
theorem proceed_inv {m m' : Machine}
    (h : proceed m = some m') (hm : Inv m) : Inv m' := by
  unfold proceed at h
  injection h with h
  subst h
  exact hm

/-- `deallocate` preserves the invariant. -/
theorem deallocate_inv {m m' : Machine}
    (h : deallocate m = some m') (hm : Inv m) : Inv m' := by
  unfold deallocate at h
  try dsimp only at h
  cases h1 : m.stack.get? (m.registers.e + 1) with
  | none =>
    rw [h1] at h
    cases h
  | some fr1 =>
    rw [h1] at h
    cases h2 : m.stack.get? m.registers.e with
    | none =>
      rw [h2] at h
      cases fr1 <;> try cases h
      case some fr1' =>
        cases fr1' <;> cases h
    | some fr2 =>
      rw [h2] at h
      cases fr1 with
      | none => cases h
      | some fr1' =>
        cases fr1' with
        | Cell c => cases h
        | Code new_p =>
          cases fr2 with
          | none => cases h
          | some fr2' =>
            cases fr2' with
            | Cell c => cases h
            | Code new_e =>
              injection h with h
              subst h
              exact hm

/-- Facts about pushing a fresh `Str`/`Func` pair at the top of the heap. -/
theorem push_str_func_facts {m : Machine} (f : Functor) (hm : Inv m) :
    ((m.heap ++ [Cell.Str (m.registers.h + 1)]) ++ [Cell.Func f]).get? m.registers.h
        = some (Cell.Str (m.registers.h + 1)) ∧
      cellOk ((m.heap ++ [Cell.Str (m.registers.h + 1)]) ++ [Cell.Func f])
        (Cell.Str (m.registers.h + 1)) = true ∧
      (∀ c ∈ (m.heap ++ [Cell.Str (m.registers.h + 1)]) ++ [Cell.Func f],
        cellOk ((m.heap ++ [Cell.Str (m.registers.h + 1)]) ++ [Cell.Func f]) c = true) ∧
      (∀ c, cellOk m.heap c = true →
        cellOk ((m.heap ++ [Cell.Str (m.registers.h + 1)]) ++ [Cell.Func f]) c = true) := by
  obtain ⟨hh, hheap, _, _⟩ := hm
  have hlen1 : (m.heap ++ [Cell.Str (m.registers.h + 1)]).length = m.registers.h + 1 := by
    simp [hh]
  have hgetf : ((m.heap ++ [Cell.Str (m.registers.h + 1)]) ++ [Cell.Func f]).get?
      (m.registers.h + 1) = some (Cell.Func f) := by
    have hcl := List.getElem?_concat_length
      (m.heap ++ [Cell.Str (m.registers.h + 1)]) (Cell.Func f)
    rw [hlen1] at hcl
    rw [List.get?_eq_getElem?]
    exact hcl
  have hgets : ((m.heap ++ [Cell.Str (m.registers.h + 1)]) ++ [Cell.Func f]).get?
      m.registers.h = some (Cell.Str (m.registers.h + 1)) := by
    rw [List.get?_eq_getElem?,
      List.getElem?_append_left (show m.registers.h <
        (m.heap ++ [Cell.Str (m.registers.h + 1)]).length by simp [hh]), hh]
    exact List.getElem?_concat_length _ _
  have hok : cellOk ((m.heap ++ [Cell.Str (m.registers.h + 1)]) ++ [Cell.Func f])
      (Cell.Str (m.registers.h + 1)) = true := by
    simp only [cellOk]
    rw [hgetf]
    rfl
  have hmono : ∀ c, cellOk m.heap c = true →
      cellOk ((m.heap ++ [Cell.Str (m.registers.h + 1)]) ++ [Cell.Func f]) c = true :=
    fun c hc => cellOk_append _ c (cellOk_append _ c hc)
  refine ⟨hgets, hok, ?_, hmono⟩
  intro c hc
  rcases List.mem_append.mp hc with hc1 | hc1
  · rcases List.mem_append.mp hc1 with hc2 | hc2
    · exact hmono c (hheap c hc2)
    · obtain rfl := List.mem_singleton.mp hc2
      exact hok
  · obtain rfl := List.mem_singleton.mp hc1
    rfl

/-- `put_structure` preserves the invariant. -/
theorem put_structure_inv {f : Functor} {xi : Register} {m m' : Machine}
    (h : put_structure f xi m = some m') (hm : Inv m) : Inv m' := by
  obtain ⟨_, hok, hall, hmono⟩ := push_str_func_facts f hm
  unfold put_structure at h
  try dsimp only at h
  cases hins : insert_register xi (Cell.Str (m.registers.h + 1))
      (push_heap (Cell.Func f) (push_heap (Cell.Str (m.registers.h + 1)) m)) with
  | none =>
    rw [hins] at h
    cases h
  | some m2 =>
    rw [hins, Option.map_some'] at h
    injection h with h
    subst h
    obtain ⟨hh2, hhr2, hx2, hst2⟩ :=
      insert_register_pres hins hok (xok_mono hmono hm.2.2.1) (frameok_mono hmono hm.2.2.2)
    refine ⟨?_, ?_, ?_, ?_⟩
    · show m2.registers.h + 2 = m2.heap.length
      rw [hhr2, hh2]
      show m.registers.h + 2 =
        ((m.heap ++ [Cell.Str (m.registers.h + 1)]) ++ [Cell.Func f]).length
      simp [hm.1]
    · show ∀ d ∈ m2.heap, cellOk m2.heap d = true
      rw [hh2]
      exact hall
    · show ∀ oc ∈ m2.registers.x, xcellOk m2.heap oc = true
      exact hx2
    · show ∀ fr ∈ m2.stack, frameOk m2.heap fr = true
      exact hst2

/-- `unify_variable` preserves the invariant. -/
theorem unify_variable_inv {xi : Register} {m m' : Machine}
    (h : unify_variable xi m = some m') (hm : Inv m) : Inv m' := by
  unfold unify_variable at h
  try dsimp only at h
  cases hmode : m.mode with
  | Read =>
    rw [hmode] at h
    try dsimp only at h
    cases hg : m.heap.get? m.registers.s with
    | none =>
      rw [hg] at h
      cases h
    | some c =>
      rw [hg, Option.some_bind] at h
      cases hins : insert_register xi c m with
      | none =>
        rw [hins] at h
        cases h
      | some m2 =>
        rw [hins, Option.map_some'] at h
        injection h with h
        subst h
        have hok : cellOk m.heap c = true := hm.2.1 c (List.get?_mem hg)
        obtain ⟨hh2, hhr2, hx2, hst2⟩ := insert_register_pres hins hok hm.2.2.1 hm.2.2.2
        refine ⟨?_, ?_, ?_, ?_⟩
        · show m2.registers.h = m2.heap.length
          rw [hhr2, hh2]
          exact hm.1
        · show ∀ d ∈ m2.heap, cellOk m2.heap d = true
          rw [hh2]
          exact hm.2.1
        · show ∀ oc ∈ m2.registers.x, xcellOk m2.heap oc = true
          exact hx2
        · show ∀ fr ∈ m2.stack, frameOk m2.heap fr = true
          exact hst2
  | Write =>
    rw [hmode] at h
    try dsimp only at h
    obtain ⟨hok, hall, hmono⟩ := push_ref_inv_parts hm
    cases hins : insert_register xi (Cell.Ref m.registers.h)
        (push_heap (Cell.Ref m.registers.h) m) with
    | none =>
      rw [hins] at h
      cases h
    | some m2 =>
      rw [hins, Option.map_some'] at h
      try dsimp only at h
      rw [Option.map_some'] at h
      injection h with h
      subst h
      obtain ⟨hh2, hhr2, hx2, hst2⟩ :=
        insert_register_pres hins hok (xok_mono hmono hm.2.2.1) (frameok_mono hmono hm.2.2.2)
      refine ⟨?_, ?_, ?_, ?_⟩
      · show m2.registers.h + 1 = m2.heap.length
        rw [hhr2, hh2]
        show m.registers.h + 1 = (m.heap ++ [Cell.Ref m.registers.h]).length
        simp [hm.1]
      · show ∀ d ∈ m2.heap, cellOk m2.heap d = true
        rw [hh2]
        exact hall
      · show ∀ oc ∈ m2.registers.x, xcellOk m2.heap oc = true
        exact hx2
      · show ∀ fr ∈ m2.stack, frameOk m2.heap fr = true
        exact hst2

/-- `unify_value` preserves the invariant. -/
theorem unify_value_inv {fuel : Nat} {xi : Register} {m m' : Machine}
    (h : unify_value fuel xi m = some m') (hm : Inv m) : Inv m' := by
  unfold unify_value at h
  try dsimp only at h
  cases hmode : m.mode with
  | Read =>
    rw [hmode] at h
    try dsimp only at h
    cases hu : unify fuel (Store.Register xi) (Store.HeapAddr m.registers.s) m with
    | none =>
      rw [hu] at h
      cases h
    | some m2 =>
      rw [hu, Option.map_some'] at h
      injection h with h
      subst h
      have hm2 := unify_inv hu hm
      exact ⟨hm2.1, hm2.2.1, hm2.2.2.1, hm2.2.2.2⟩
  | Write =>
    rw [hmode] at h
    try dsimp only at h
    cases hg : get_register m xi with
    | none =>
      rw [hg] at h
      cases h
    | some c =>
      rw [hg, Option.map_some'] at h
      try dsimp only at h
      rw [Option.map_some'] at h
      injection h with h
      subst h
      have hok := get_store_cell_ok hm (Store.Register xi) c hg
      obtain ⟨hh, hheap, hx, hst⟩ := hm
      refine ⟨?_, ?_, ?_, ?_⟩
      · show m.registers.h + 1 = (m.heap ++ [c]).length
        simp [hh]
      · show ∀ d ∈ m.heap ++ [c], cellOk (m.heap ++ [c]) d = true
        intro d hd
        rcases List.mem_append.mp hd with hdm | hdm
        · exact cellOk_append _ d (hheap d hdm)
        · obtain rfl := List.mem_singleton.mp hdm
          exact cellOk_append _ d hok
      · show ∀ oc ∈ m.registers.x, xcellOk (m.heap ++ [c]) oc = true
        exact xok_mono (cellOk_append _) hx
      · show ∀ fr ∈ m.stack, frameOk (m.heap ++ [c]) fr = true
        exact frameok_mono (cellOk_append _) hst

/-- `allocate` preserves the invariant: every frame it writes is a `Code`
frame or a `none` filler. -/
theorem allocate_inv {n : Nat} {m m' : Machine}
    (h : allocate n m = some m') (hm : Inv m) : Inv m' := by
  obtain ⟨hh, hheap, hx, hst⟩ := hm
  unfold allocate at h
  try dsimp only at h
  have hst0 : ∀ fr ∈ resize m.stack (m.registers.e + n + 5) none,
      frameOk m.heap fr = true := by
    intro fr hfr
    rcases mem_resize fr hfr with hmem | rfl
    · exact hst fr hmem
    · rfl
  cases hs1 : listSet? (resize m.stack (m.registers.e + n + 5) none)
      (m.registers.e + 2) (some (Frame.Code n)) with
  | none =>
    rw [hs1] at h
    cases h
  | some st1 =>
    rw [hs1, Option.some_bind] at h
    have hst1 : ∀ fr ∈ st1, frameOk m.heap fr = true := by
      intro fr hfr
      rcases listSet?_mem hs1 fr hfr with hmem | rfl
      · exact hst0 fr hmem
      · rfl
    cases hg : st1.get? (m.registers.e + 2) with
    | none =>
      rw [hg] at h
      cases h
    | some ofr =>
      rw [hg] at h
      cases ofr with
      | none => cases h
      | some fr =>
        cases fr with
        | Cell c => cases h
        | Code temp =>
          try dsimp only at h
          cases hs2 : listSet? st1 (m.registers.e + temp + 3)
              (some (Frame.Code m.registers.e)) with
          | none =>
            rw [hs2] at h
            cases h
          | some st2 =>
            rw [hs2, Option.some_bind] at h
            have hst2 : ∀ fr ∈ st2, frameOk m.heap fr = true := by
              intro fr hfr
              rcases listSet?_mem hs2 fr hfr with hmem | rfl
              · exact hst1 fr hmem
              · rfl
            cases hs3 : listSet? st2 (m.registers.e + temp + 3 + 1)
                (some (Frame.Code m.registers.cp)) with
            | none =>
              rw [hs3] at h
              cases h
            | some st3 =>
              rw [hs3, Option.map_some'] at h
              injection h with h
              subst h
              have hst3 : ∀ fr ∈ st3, frameOk m.heap fr = true := by
                intro fr hfr
                rcases listSet?_mem hs3 fr hfr with hmem | rfl
                · exact hst2 fr hmem
                · rfl
              exact ⟨hh, hheap, hx, hst3⟩

/-- `get_structure` preserves the invariant, provided its register
dereferences to a heap address or to a register holding a non-`Ref` cell
(the amended C8 side condition). -/
theorem get_structure_inv {fuel : Nat} {f : Functor} {xi : Register} {m m' : Machine}
    (h : get_structure fuel f xi m = some m') (hm : Inv m)
    (hgs : (∃ a, derefF fuel m (Store.Register xi) = some (Store.HeapAddr a)) ∨
      (∃ c, derefF fuel m (Store.Register xi) = some (Store.Register xi) ∧
        get_register m xi = some c ∧ c.is_ref = false)) : Inv m' := by
  have hstr : ∀ (a : Nat),
      (match m.heap.get? a with
        | some (Cell.Func g) =>
          if g = f then some (set_mode Mode.Read (set_s (a + 1) m))
          else some (set_fail true m)
        | _ => none) = some m' → Inv m' := by
    intro a harm
    cases hga : m.heap.get? a with
    | none =>
      rw [hga] at harm
      cases harm
    | some cc =>
      rw [hga] at harm
      cases cc with
      | Ref v => cases harm
      | Str v => cases harm
      | Func g =>
        try dsimp only at harm
        by_cases hgf : g = f
        · rw [if_pos hgf] at harm
          injection harm with harm
          subst harm
          exact hm
        · rw [if_neg hgf] at harm
          injection harm with harm
          subst harm
          exact hm
  unfold get_structure at h
  cases hd : derefF fuel m (Store.Register xi) with
  | none =>
    rw [hd] at h
    cases h
  | some d =>
    rw [hd, Option.some_bind] at h
    try dsimp only at h
    cases d with
    | HeapAddr addr =>
      try dsimp only at h
      cases hg : m.heap.get? addr with
      | none =>
        rw [hg] at h
        cases h
      | some cell =>
        rw [hg] at h
        simp only [Option.map_some', Option.some_bind] at h
        try dsimp only at h
        cases cell with
        | Func g =>
          injection h with h
          subst h
          exact hm
        | Str a => exact hstr a h
        | Ref r1 =>
          try dsimp only at h
          obtain ⟨hgets, hokstr, hall1, hmono1⟩ := push_str_func_facts f hm
          cases hb : bind (Store.HeapAddr addr) (Store.HeapAddr m.registers.h)
              (push_heap (Cell.Func f) (push_heap (Cell.Str (m.registers.h + 1)) m)) with
          | none =>
            rw [hb] at h
            cases h
          | some m2 =>
            rw [hb, Option.map_some'] at h
            injection h with h
            subst h
            have haddrlt : addr < m.heap.length := get?_some_lt hg
            have hcellmem : Cell.Ref r1 ∈ m.heap := List.get?_mem hg
            have hget1 : get_store_cell (push_heap (Cell.Func f)
                (push_heap (Cell.Str (m.registers.h + 1)) m)) (Store.HeapAddr addr)
                = some (Cell.Ref r1) := by
              show ((m.heap ++ [Cell.Str (m.registers.h + 1)]) ++ [Cell.Func f]).get? addr
                = some (Cell.Ref r1)
              rw [List.get?_eq_getElem?,
                List.getElem?_append_left (show addr <
                  (m.heap ++ [Cell.Str (m.registers.h + 1)]).length by
                    simp only [List.length_append, List.length_singleton]
                    omega),
                List.getElem?_append_left haddrlt, ← List.get?_eq_getElem?]
              exact hg
            have hget2 : get_store_cell (push_heap (Cell.Func f)
                (push_heap (Cell.Str (m.registers.h + 1)) m))
                (Store.HeapAddr m.registers.h) = some (Cell.Str (m.registers.h + 1)) :=
              hgets
            obtain ⟨hlen, hmono, hall', hreg, hstk⟩ :=
              bind_preserves hb hall1
                (fun c hc => by
                  rw [hget1] at hc
                  injection hc with hc
                  subst hc
                  exact hmono1 _ (hm.2.1 _ hcellmem))
                (fun c hc => by
                  rw [hget2] at hc
                  injection hc with hc
                  subst hc
                  exact hokstr)
                (fun c1 c2 hc1 hc2 => by
                  rw [hget1] at hc1
                  injection hc1 with hc1
                  subst hc1
                  rfl)
            refine ⟨?_, hall', ?_, ?_⟩
            · show m2.registers.h + 2 = m2.heap.length
              rw [hlen, hreg]
              show m.registers.h + 2 =
                ((m.heap ++ [Cell.Str (m.registers.h + 1)]) ++ [Cell.Func f]).length
              simp [hm.1]
            · show ∀ oc ∈ m2.registers.x, xcellOk m2.heap oc = true
              rw [hreg]
              exact xok_mono hmono (xok_mono hmono1 hm.2.2.1)
            · show ∀ fr ∈ m2.stack, frameOk m2.heap fr = true
              rw [hstk]
              exact frameok_mono hmono (frameok_mono hmono1 hm.2.2.2)
    | Register r =>
      rcases hgs with ⟨a, ha⟩ | ⟨c, hdr, hgr, hcr⟩
      · rw [hd] at ha
        simp at ha
      · rw [hd] at hdr
        injection hdr with hdr
        injection hdr with hdr
        subst hdr
        try dsimp only at h
        rw [hgr] at h
        simp only [Option.map_some', Option.some_bind] at h
        try dsimp only at h
        cases c with
        | Ref v => cases hcr
        | Str a => exact hstr a h
        | Func g =>
          injection h with h
          subst h
          exact hm

/-- C8, amended: the `Str`-points-at-`Func` property is an invariant of
execution under the side condition that every executed `GetStructure`
dereferences its register to a heap address or to a register holding a
non-`Ref` cell. Concretely: the fresh machine satisfies the machine
invariant `Inv` (h equals the heap length, and every heap, register and
stack cell is well-formed), `Inv` implies the claimed heap property
`strHeapOk`, and every instruction whose `GetStructure` side condition
(`goodStep`) holds preserves `Inv`. -/
theorem claim_C8_amended :
    Inv Machine.new ∧
      (∀ m : Machine, Inv m → strHeapOk m.heap = true) ∧
      (∀ (fuel : Nat) (i : Instruction) (m m' : Machine),
        Inv m → goodStep fuel i m → execute fuel i m = some m' → Inv m') := by
  refine ⟨?_, ?_, ?_⟩
  · exact ⟨rfl, by simp [Machine.new], by simp [Machine.new], by simp [Machine.new]⟩
  · intro m hm
    rw [strHeapOk, List.all_eq_true]
    intro c hc
    cases c with
    | Str a => exact hm.2.1 (Cell.Str a) hc
    | Ref v => rfl
    | Func g => rfl
  · intro fuel i m m' hm hgs hex
    cases i with
    | PutStructure f x => exact put_structure_inv hex hm
    | GetStructure f x => exact get_structure_inv hex hm (hgs f x rfl)
    | SetVariable x => exact set_variable_inv hex hm
    | UnifyVariable x => exact unify_variable_inv hex hm
    | SetValue x => exact set_value_inv hex hm
    | UnifyValue x => exact unify_value_inv hex hm
    | PutVariable x a => exact put_variable_inv hex hm
    | PutValue x a => exact put_value_inv hex hm
    | GetValue x a => exact get_value_inv hex hm
    | GetVariable x a => exact get_variable_inv hex hm
    | Allocate n => exact allocate_inv hex hm
    | Deallocate => exact deallocate_inv hex hm
    | Call f => exact call_inv hex hm
    | Proceed => exact proceed_inv hex hm

/-- C8, witness: the preservation part of the amended claim applied to a
concrete step — `SetVariable X1` on the fresh machine — whose `goodStep`
side condition holds vacuously. -/
theorem claim_C8_witness :
    ∃ m', execute 1 (Instruction.SetVariable (Register.X 1)) Machine.new = some m' ∧
      Inv m' :=
  ⟨_, rfl,
    claim_C8_amended.2.2 1 (Instruction.SetVariable (Register.X 1)) Machine.new _
      claim_C8_amended.1 (fun f r hfr => nomatch hfr) rfl⟩

end WAM
